import Mathlib

set_option maxHeartbeats 1000000
set_option maxRecDepth 4000

/-!
Verification of the pipeline orchestration engine of the commandcentral
repository (services `pipeline_loader.py`, `pipeline_validator.py`,
`pipeline_executor.py`, `pipeline_service.py`, model `pipeline.py`).

The Python code manipulates parsed YAML/JSON trees, so the embedding is
built over a `Json` value type mirroring Python's `None | bool | int/float
| str | list | dict` universe.  External collaborators (the Jinja2 template
engine, LLM/browser/git adapters, credential probes) are abstracted as
parameters, exactly at the boundaries where the source calls out of the
engine.
-/

namespace Pipelzr

/-- JSON-like values, the universe of parsed YAML documents, stage inputs
and stage outputs in the Python source.  Numbers keep their source lexeme
(the engine never computes with stage-output numbers, and floating point
is outside the embedding). -/
inductive Json where
  | null : Json
  | bool (b : Bool) : Json
  | num (lexeme : String) : Json
  | str (s : String) : Json
  | arr (items : List Json) : Json
  | obj (fields : List (String × Json)) : Json

/-- Python `dict` lookup (`d.get(k)`); fields are kept with unique keys in
insertion order, as CPython dicts do. -/
def dictGet (fields : List (String × Json)) (k : String) : Option Json :=
  match fields with
  | [] => none
  | (k', v) :: rest => if k' = k then some v else dictGet rest k

/-- Python `d[k] = v`: replace in place if the key exists, else append
(CPython insertion-order semantics). -/
def dictSet (fields : List (String × Json)) (k : String) (v : Json) :
    List (String × Json) :=
  match fields with
  | [] => [(k, v)]
  | (k', v') :: rest =>
      if k' = k then (k, v) :: rest else (k', v') :: dictSet rest k v

/-- Python `base.update(updates)`. -/
def dictUpdate (base updates : List (String × Json)) : List (String × Json) :=
  updates.foldl (fun m kv => dictSet m kv.1 kv.2) base

/-- Whether a numeric lexeme denotes zero (every digit is `0`); used only
for Python truthiness of numbers, which no claim exercises on non-integer
data. -/
def numIsZero (lexeme : String) : Bool :=
  lexeme.toList.all (fun c =>
    c = '0' ∨ c = '.' ∨ c = '-' ∨ c = '+' ∨ c = 'e' ∨ c = 'E')

/-- Python truthiness of a value (`bool(x)`). -/
def Json.truthy : Json → Bool
  | .null => false
  | .bool b => b
  | .num l => !numIsZero l
  | .str s => !s.isEmpty
  | .arr xs => !xs.isEmpty
  | .obj fs => !fs.isEmpty

/-- Field access on a raw document: Python `d.get(k)` where `d` is known to
be a dict. -/
def jget (j : Json) (k : String) : Option Json :=
  match j with
  | .obj fs => dictGet fs k
  | _ => none

/-- JSON whitespace accepted by Python's `json` module between tokens. -/
def jsonWs (c : Char) : Bool :=
  c = ' ' ∨ c = '\t' ∨ c = '\n' ∨ c = '\r'

/-- Hexadecimal digit value, for `\uXXXX` string escapes. -/
def hexVal (c : Char) : Option Nat :=
  if '0' ≤ c ∧ c ≤ '9' then some (c.toNat - '0'.toNat)
  else if 'a' ≤ c ∧ c ≤ 'f' then some (c.toNat - 'a'.toNat + 10)
  else if 'A' ≤ c ∧ c ≤ 'F' then some (c.toNat - 'A'.toNat + 10)
  else none

/-- Decimal digit test. -/
def isDigit (c : Char) : Bool := '0' ≤ c ∧ c ≤ '9'

/-- Parse the body of a JSON string literal (after the opening quote),
decoding escapes as Python's `json` module does.  Unescaped control
characters are rejected, like Python's strict mode. -/
def parseStringBody : Nat → List Char → Option (String × List Char)
  | 0, _ => none
  | _, [] => none
  | fuel + 1, c :: rest =>
      if c = '"' then some ("", rest)
      else if c = '\\' then
        match rest with
        | [] => none
        | e :: rest2 =>
            let decoded : Option (String × List Char) :=
              if e = '"' then some ("\"", rest2)
              else if e = '\\' then some ("\\", rest2)
              else if e = '/' then some ("/", rest2)
              else if e = 'b' then some ("\x08", rest2)
              else if e = 'f' then some ("\x0c", rest2)
              else if e = 'n' then some ("\n", rest2)
              else if e = 'r' then some ("\r", rest2)
              else if e = 't' then some ("\t", rest2)
              else if e = 'u' then
                match rest2 with
                | h1 :: h2 :: h3 :: h4 :: rest3 =>
                    match hexVal h1, hexVal h2, hexVal h3, hexVal h4 with
                    | some a, some b, some c', some d =>
                        some (String.mk [Char.ofNat (((a * 16 + b) * 16 + c') * 16 + d)], rest3)
                    | _, _, _, _ => none
                | _ => none
              else none
            match decoded with
            | some (piece, rest') =>
                match parseStringBody fuel rest' with
                | some (tail, rest'') => some (piece ++ tail, rest'')
                | none => none
            | none => none
      else if c.toNat < 32 then none
      else
        match parseStringBody fuel rest with
        | some (tail, rest') => some (String.mk [c] ++ tail, rest')
        | none => none

/-- Parse the digits/fraction/exponent of a JSON number starting at `cs`
(after an optional leading minus already consumed), returning the lexeme.
Python's `json` grammar: no leading zeros, fraction and exponent need at
least one digit. -/
def parseNumberTail (cs : List Char) : Option (String × List Char) :=
  let intPart : Option (List Char × List Char) :=
    match cs with
    | '0' :: rest => some (['0'], rest)
    | c :: rest =>
        if isDigit c ∧ c ≠ '0' then
          some (c :: rest.takeWhile isDigit, rest.dropWhile isDigit)
        else none
    | [] => none
  match intPart with
  | none => none
  | some (ip, rest) =>
      let (fp, rest2) :=
        match rest with
        | '.' :: r =>
            let ds := r.takeWhile isDigit
            if ds.isEmpty then ([], rest) else ('.' :: ds, r.dropWhile isDigit)
        | _ => ([], rest)
      let (ep, rest3) :=
          match rest2 with
          | e :: r =>
              if e = 'e' ∨ e = 'E' then
                match r with
                | s :: r2 =>
                    if s = '+' ∨ s = '-' then
                      let ds := r2.takeWhile isDigit
                      if ds.isEmpty then ([], rest2)
                      else (e :: s :: ds, r2.dropWhile isDigit)
                    else
                      let ds := r.takeWhile isDigit
                      if ds.isEmpty then ([], rest2)
                      else (e :: ds, r.dropWhile isDigit)
                | [] => ([], rest2)
              else ([], rest2)
          | [] => ([], rest2)
      some (String.mk (ip ++ fp ++ ep), rest3)

/-- Prepend an object member parsed before `kvs`: Python builds the dict by
successive assignment, so a duplicated key keeps the position of its first
occurrence and the value of its last (no claim exercises duplicates). -/
def objCons (k : String) (v : Json) (kvs : List (String × Json)) :
    List (String × Json) :=
  match dictGet kvs k with
  | some v' => (k, v') :: kvs.filter (fun kv => kv.1 ≠ k)
  | none => (k, v) :: kvs

mutual

/-- Parse one JSON value (Python `json.loads` grammar, including the
`NaN`/`Infinity` extensions Python accepts by default). -/
def parseValue : Nat → List Char → Option (Json × List Char)
  | 0, _ => none
  | fuel + 1, cs =>
      match cs.dropWhile jsonWs with
      | [] => none
      | c :: rest =>
          if c = 'n' then
            match rest with
            | 'u' :: 'l' :: 'l' :: r => some (.null, r)
            | _ => none
          else if c = 't' then
            match rest with
            | 'r' :: 'u' :: 'e' :: r => some (.bool true, r)
            | _ => none
          else if c = 'f' then
            match rest with
            | 'a' :: 'l' :: 's' :: 'e' :: r => some (.bool false, r)
            | _ => none
          else if c = 'N' then
            match rest with
            | 'a' :: 'N' :: r => some (.num "NaN", r)
            | _ => none
          else if c = 'I' then
            match rest with
            | 'n' :: 'f' :: 'i' :: 'n' :: 'i' :: 't' :: 'y' :: r =>
                some (.num "Infinity", r)
            | _ => none
          else if c = '"' then
            match parseStringBody (fuel + 1) rest with
            | some (s, r) => some (.str s, r)
            | none => none
          else if c = '[' then
            match rest.dropWhile jsonWs with
            | ']' :: r => some (.arr [], r)
            | _ => parseElems fuel rest
          else if c = '\x7b' then
            match rest.dropWhile jsonWs with
            | '\x7d' :: r => some (.obj [], r)
            | _ => parsePairs fuel rest
          else if c = '-' then
            match rest with
            | 'I' :: 'n' :: 'f' :: 'i' :: 'n' :: 'i' :: 't' :: 'y' :: r =>
                some (.num "-Infinity", r)
            | _ =>
                match parseNumberTail rest with
                | some (lex, r) => some (.num ("-" ++ lex), r)
                | none => none
          else
            match parseNumberTail (c :: rest) with
            | some (lex, r) => some (.num lex, r)
            | none => none

/-- Parse the non-empty element list of a JSON array (after `[`). -/
def parseElems : Nat → List Char → Option (Json × List Char)
  | 0, _ => none
  | fuel + 1, cs =>
      match parseValue fuel cs with
      | none => none
      | some (v, rest) =>
          match rest.dropWhile jsonWs with
          | ',' :: rest2 =>
              match parseElems fuel rest2 with
              | some (.arr vs, rest3) => some (.arr (v :: vs), rest3)
              | _ => none
          | ']' :: rest2 => some (.arr [v], rest2)
          | _ => none

/-- Parse the non-empty member list of a JSON object (after the opening
brace). -/
def parsePairs : Nat → List Char → Option (Json × List Char)
  | 0, _ => none
  | fuel + 1, cs =>
      match cs.dropWhile jsonWs with
      | '"' :: rest =>
          match parseStringBody (fuel + 1) rest with
          | none => none
          | some (k, rest1) =>
              match rest1.dropWhile jsonWs with
              | ':' :: rest2 =>
                  match parseValue fuel rest2 with
                  | none => none
                  | some (v, rest3) =>
                      match rest3.dropWhile jsonWs with
                      | ',' :: rest4 =>
                          match parsePairs fuel rest4 with
                          | some (.obj kvs, rest5) =>
                              some (.obj (objCons k v kvs), rest5)
                          | _ => none
                      | '\x7d' :: rest4 => some (.obj [(k, v)], rest4)
                      | _ => none
              | _ => none
      | _ => none

end

/-- Python `json.loads`: parse one value and require only whitespace after
it; any failure is a `JSONDecodeError` (modelled as `none`). -/
def jsonLoads (text : String) : Option Json :=
  match parseValue (2 * text.length + 2) text.toList with
  | some (v, rest) => if (rest.dropWhile jsonWs).isEmpty then some v else none
  | none => none

/-! ## Data model (`pipeline_loader.py`)

`StageDefinition` and `PipelineDefinition` mirror the dataclasses of
`app/services/pipeline_loader.py` field by field, with Python defaults.
`raw_yaml` (the original source text, unused by the engine after parsing)
is omitted.  `input_template` is typed `str` in Python but action stages
accept a nested structure at runtime (`_execute_action_stage` checks
`isinstance(..., str)`), so it is a `Json` here. -/

structure StageDefinition where
  id : String
  name : String
  stage_type : String
  persona : Option String := none
  action : Option String := none
  description : String := ""
  input_template : Json := .str ""
  output_mapping : List (String × String) := []
  depends_on : List String := []
  parallel_with : List String := []
  timeout_seconds : Nat := 120
  required : Bool := true
  condition : Option String := none
  config : List (String × Json) := []

structure PipelineDefinition where
  name : String
  display_name : String := ""
  description : String := ""
  version : String := "1.0.0"
  category : String := "general"
  stages : List StageDefinition
  input_schema : Json := .obj []
  output_schema : Json := .obj []
  config : List (String × Json) := []
  execution : List (String × Json) := []
  hooks : List (String × Json) := []

/-! ## Dependency scheduler (`PipelineDefinition._topological_sort`) -/

/-- `stage_map = {s.id: s for s in self.stages}`: a Python dict
comprehension keeps the last stage for a duplicated id. -/
def stage_map (stages : List StageDefinition) (i : String) :
    Option StageDefinition :=
  stages.foldl (fun acc s => if s.id = i then some s else acc) none

/-- `stage_map[stage_id].depends_on`, with `[]` for an id that is not in
the map (unreachable in the source, where every member of `remaining`
comes from `stages`). -/
def depsOf (stages : List StageDefinition) (i : String) : List String :=
  match stage_map stages i with
  | some s => s.depends_on
  | none => []

/-- `remaining = set(s.id for s in self.stages)`: a set of ids.  CPython
iterates a set in an unspecified order; the embedding fixes
first-occurrence order (the claims treat batches as sets). -/
def dedupFirst {α : Type} [DecidableEq α] : List α → List α
  | [] => []
  | x :: xs => x :: (dedupFirst xs).filter (fun y => y ≠ x)

/-- The `while remaining:` loop of `_topological_sort`: each round takes
every remaining id whose dependencies are all completed; an empty round
with ids remaining raises `ValueError` (modelled as `none`).  `fuel`
bounds the rounds; each successful round removes at least one id, so
`remaining.length` rounds suffice. -/
def topoAux (deps : String → List String) :
    Nat → List String → List String → Option (List (List String))
  | _, [], _ => some []
  | 0, _ :: _, _ => none
  | fuel + 1, remaining, completed =>
      let batch := remaining.filter
        (fun i => (deps i).all (fun d => decide (d ∈ completed)))
      if batch.isEmpty then none
      else
        match topoAux deps fuel
            (remaining.filter (fun i => decide (i ∉ batch)))
            (completed ++ batch) with
        | some rest => some (batch :: rest)
        | none => none

/-- `PipelineDefinition._topological_sort`. -/
def topologicalSort (stages : List StageDefinition) :
    Option (List (List String)) :=
  let ids := dedupFirst (stages.map (·.id))
  topoAux (depsOf stages) ids.length ids []

/-- `PipelineDefinition.get_execution_order`. -/
def PipelineDefinition.get_execution_order (p : PipelineDefinition) :
    Option (List (List String)) :=
  topologicalSort p.stages

/-- Acyclicity of the dependency graph, as the existence of a rank
function that strictly decreases along every `depends_on` edge — the
standard characterisation for a finite graph. -/
def AcyclicDeps (stages : List StageDefinition) : Prop :=
  ∃ rank : String → Nat, ∀ s ∈ stages, ∀ d ∈ s.depends_on, rank d < rank s.id

/-- Batches respect dependencies layer by layer: every dependency of a
member of a batch is already in `completed`, which then grows by the
batch. -/
def DepsLayered (deps : String → List String) :
    List String → List (List String) → Prop
  | _, [] => True
  | completed, b :: rest =>
      (∀ i ∈ b, ∀ d ∈ deps i, d ∈ completed) ∧
        DepsLayered deps (completed ++ b) rest

lemma mem_dedupFirst {α : Type} [DecidableEq α] {a : α} :
    ∀ {l : List α}, a ∈ dedupFirst l ↔ a ∈ l := by
  intro l
  induction l with
  | nil => simp [dedupFirst]
  | cons x xs ih =>
      simp only [dedupFirst, List.mem_cons, List.mem_filter]
      constructor
      · rintro (rfl | ⟨h, _⟩)
        · exact Or.inl rfl
        · exact Or.inr (ih.1 h)
      · rintro (rfl | h)
        · exact Or.inl rfl
        · by_cases hax : a = x
          · exact Or.inl hax
          · exact Or.inr ⟨ih.2 h, by simpa using hax⟩

lemma nodup_dedupFirst {α : Type} [DecidableEq α] :
    ∀ (l : List α), (dedupFirst l).Nodup := by
  intro l
  induction l with
  | nil => simp [dedupFirst]
  | cons x xs ih =>
      simp only [dedupFirst, List.nodup_cons]
      refine ⟨fun hx => ?_, List.Nodup.filter _ ih⟩
      have := (List.mem_filter.1 hx).2
      simp at this

lemma dedupFirst_eq_self {α : Type} [DecidableEq α] {l : List α}
    (h : l.Nodup) : dedupFirst l = l := by
  induction l with
  | nil => rfl
  | cons x xs ih =>
      simp only [List.nodup_cons] at h
      simp only [dedupFirst, ih h.2]
      rw [List.filter_eq_self.2]
      intro y hy
      simp only [decide_eq_true_iff]
      rintro rfl
      exact h.1 hy

lemma stage_map_foldl_skip (tl : List StageDefinition) (i : String) :
    ∀ acc, i ∉ tl.map (·.id) →
      tl.foldl (fun acc s => if s.id = i then some s else acc) acc = acc := by
  induction tl with
  | nil => intro acc _; rfl
  | cons hd tl ih =>
      intro acc h
      simp only [List.map_cons, List.mem_cons] at h
      push_neg at h
      simp only [List.foldl_cons]
      rw [if_neg (by exact fun he => h.1 he.symm)]
      exact ih acc h.2

lemma stage_map_foldl_spec (i : String) :
    ∀ (stages : List StageDefinition) (acc : Option StageDefinition)
      (s : StageDefinition),
      stages.foldl (fun acc s => if s.id = i then some s else acc) acc = some s →
      (s ∈ stages ∧ s.id = i) ∨ acc = some s := by
  intro stages
  induction stages with
  | nil => intro acc s hh; exact Or.inr hh
  | cons hd tl ih =>
      intro acc s hh
      simp only [List.foldl_cons] at hh
      rcases ih _ s hh with h1 | h2
      · exact Or.inl ⟨List.mem_cons_of_mem _ h1.1, h1.2⟩
      · by_cases hid : hd.id = i
        · rw [if_pos hid] at h2
          cases h2
          exact Or.inl ⟨List.mem_cons_self _ _, hid⟩
        · rw [if_neg hid] at h2
          exact Or.inr h2

lemma stage_map_spec {stages : List StageDefinition} {i : String}
    {s : StageDefinition} (h : stage_map stages i = some s) :
    s ∈ stages ∧ s.id = i := by
  rcases stage_map_foldl_spec i stages none s h with h1 | h2
  · exact h1
  · exact absurd h2 (by simp)

lemma stage_map_eq_of_nodup {stages : List StageDefinition}
    (h : (stages.map (·.id)).Nodup) {s : StageDefinition} (hs : s ∈ stages) :
    stage_map stages s.id = some s := by
  induction stages with
  | nil => cases hs
  | cons hd tl ih =>
      simp only [List.map_cons, List.nodup_cons] at h
      rcases List.mem_cons.1 hs with rfl | hmem
      · show List.foldl _ (if s.id = s.id then some s else none) tl = some s
        rw [if_pos rfl]
        exact stage_map_foldl_skip tl s.id (some s) h.1
      · have hne : hd.id ≠ s.id := by
          intro he
          exact h.1 (he ▸ List.mem_map.2 ⟨s, hmem, rfl⟩)
        show List.foldl _ (if hd.id = s.id then some hd else none) tl = some s
        rw [if_neg hne]
        exact ih h.2 hmem

lemma depsOf_rank {stages : List StageDefinition} {rank : String → Nat}
    (h : ∀ s ∈ stages, ∀ d ∈ s.depends_on, rank d < rank s.id) :
    ∀ i, ∀ d ∈ depsOf stages i, rank d < rank i := by
  intro i d hd
  unfold depsOf at hd
  cases hm : stage_map stages i with
  | none => rw [hm] at hd; cases hd
  | some s =>
      rw [hm] at hd
      obtain ⟨hs, hid⟩ := stage_map_spec hm
      exact hid ▸ h s hs d hd

lemma exists_min_rank (rank : String → Nat) :
    ∀ (l : List String) (a : String),
      ∃ i ∈ a :: l, ∀ j ∈ a :: l, rank i ≤ rank j := by
  intro l
  induction l with
  | nil => intro a; exact ⟨a, by simp, by simp⟩
  | cons b bs ih =>
      intro a
      obtain ⟨i, hi, hmin⟩ := ih b
      by_cases hle : rank a ≤ rank i
      · refine ⟨a, List.mem_cons_self _ _, ?_⟩
        intro j hj
        rcases List.mem_cons.1 hj with rfl | hj'
        · exact le_refl _
        · exact le_trans hle (hmin j hj')
      · refine ⟨i, List.mem_cons_of_mem _ hi, ?_⟩
        intro j hj
        rcases List.mem_cons.1 hj with rfl | hj'
        · exact le_of_lt (lt_of_not_le hle)
        · exact hmin j hj'

lemma length_filter_lt {α : Type} (p : α → Bool) (l : List α) (x : α)
    (hx : x ∈ l) (hpx : p x = false) : (l.filter p).length < l.length := by
  induction l with
  | nil => cases hx
  | cons a as ih =>
      rcases List.mem_cons.1 hx with rfl | hmem
      · simp only [List.filter_cons, hpx]
        exact Nat.lt_succ_of_le (List.length_filter_le _ _)
      · simp only [List.filter_cons]
        cases hpa : p a
        · exact Nat.lt_succ_of_lt (ih hmem)
        · simpa using Nat.succ_lt_succ (ih hmem)

lemma topoAux_sound (deps : String → List String) :
    ∀ fuel remaining completed bs,
      topoAux deps fuel remaining completed = some bs →
      bs.flatten.Perm remaining ∧ DepsLayered deps completed bs := by
  intro fuel
  induction fuel with
  | zero =>
      intro remaining completed bs h
      cases remaining with
      | nil =>
          simp only [topoAux] at h
          cases h
          exact ⟨by simp, trivial⟩
      | cons a as =>
          simp only [topoAux] at h
          exact Option.noConfusion h
  | succ n ih =>
      intro remaining completed bs h
      cases remaining with
      | nil =>
          simp only [topoAux] at h
          cases h
          exact ⟨by simp, trivial⟩
      | cons a as =>
          simp only [topoAux] at h
          set batch := (a :: as).filter
            (fun i => (deps i).all (fun d => decide (d ∈ completed))) with hbatch
          by_cases hE : batch.isEmpty
          · rw [if_pos hE] at h; cases h
          · rw [if_neg hE] at h
            cases hrec : topoAux deps n
                ((a :: as).filter (fun i => decide (i ∉ batch)))
                (completed ++ batch) with
            | none => rw [hrec] at h; cases h
            | some rest =>
                rw [hrec] at h
                cases h
                obtain ⟨hperm, hdl⟩ := ih _ _ _ hrec
                constructor
                · show (batch :: rest).flatten.Perm (a :: as)
                  have h1 : (batch :: rest).flatten = batch ++ rest.flatten := by
                    simp
                  rw [h1]
                  have h2 : (batch ++ rest.flatten).Perm
                      (batch ++ (a :: as).filter (fun i => decide (i ∉ batch))) :=
                    List.Perm.append_left _ hperm
                  refine h2.trans ?_
                  have h3 : (a :: as).filter (fun i => decide (i ∉ batch)) =
                      (a :: as).filter (fun i =>
                        !((deps i).all (fun d => decide (d ∈ completed)))) := by
                    apply List.filter_congr
                    intro i hi
                    by_cases hp : (deps i).all (fun d => decide (d ∈ completed))
                    · have : i ∈ batch := List.mem_filter.2 ⟨hi, hp⟩
                      simp [this, hp]
                    · have : i ∉ batch := fun hc => hp ((List.mem_filter.1 hc).2)
                      simp [this, hp]
                  rw [h3, hbatch]
                  exact List.filter_append_perm _ _
                · refine ⟨?_, hdl⟩
                  intro i hi d hd
                  have hp := (List.mem_filter.1 hi).2
                  rw [List.all_eq_true] at hp
                  simpa using hp d hd

lemma topoAux_complete (deps : String → List String) (rank : String → Nat)
    (hrank : ∀ i, ∀ d ∈ deps i, rank d < rank i) :
    ∀ fuel remaining completed, remaining.length ≤ fuel →
      (∀ i ∈ remaining, ∀ d ∈ deps i, d ∈ completed ∨ d ∈ remaining) →
      ∃ bs, topoAux deps fuel remaining completed = some bs := by
  intro fuel
  induction fuel with
  | zero =>
      intro remaining completed hlen _
      rw [List.length_eq_zero.1 (Nat.le_zero.1 hlen)]
      exact ⟨[], rfl⟩
  | succ n ih =>
      intro remaining completed hlen hclosed
      cases remaining with
      | nil => exact ⟨[], rfl⟩
      | cons a as =>
          obtain ⟨i0, hi0, hmin⟩ := exists_min_rank rank as a
          have hready : (deps i0).all (fun d => decide (d ∈ completed)) = true := by
            rw [List.all_eq_true]
            intro d hd
            rcases hclosed i0 hi0 d hd with hc | hr
            · simpa using hc
            · exact absurd (hrank i0 d hd) (not_lt.2 (hmin d hr))
          set batch := (a :: as).filter
            (fun i => (deps i).all (fun d => decide (d ∈ completed))) with hbatch
          have hi0b : i0 ∈ batch := List.mem_filter.2 ⟨hi0, hready⟩
          have hE : batch.isEmpty = false := by
            cases hb : batch.isEmpty
            · rfl
            · rw [List.isEmpty_iff] at hb
              rw [hb] at hi0b
              cases hi0b
          have hlt : ((a :: as).filter (fun i => decide (i ∉ batch))).length <
              (a :: as).length :=
            length_filter_lt _ _ i0 hi0 (by simp [hi0b])
          have hlen' : ((a :: as).filter (fun i => decide (i ∉ batch))).length ≤ n := by
            omega
          have hclosed' : ∀ i ∈ (a :: as).filter (fun i => decide (i ∉ batch)),
              ∀ d ∈ deps i, d ∈ completed ++ batch ∨
                d ∈ (a :: as).filter (fun i => decide (i ∉ batch)) := by
            intro i hi d hd
            have himem : i ∈ a :: as := (List.mem_filter.1 hi).1
            rcases hclosed i himem d hd with hc | hr
            · exact Or.inl (List.mem_append.2 (Or.inl hc))
            · by_cases hdb : d ∈ batch
              · exact Or.inl (List.mem_append.2 (Or.inr hdb))
              · exact Or.inr (List.mem_filter.2 ⟨hr, by simp [hdb]⟩)
          obtain ⟨rest, hrest⟩ := ih _ _ hlen' hclosed'
          refine ⟨batch :: rest, ?_⟩
          simp only [topoAux]
          rw [← hbatch, if_neg (by simp [hE]), hrest]

lemma depsLayered_take (deps : String → List String) :
    ∀ (bs : List (List String)) (completed : List String),
      DepsLayered deps completed bs →
      ∀ k i, i ∈ bs.getD k [] → ∀ d ∈ deps i,
        d ∈ completed ∨ d ∈ (bs.take k).flatten := by
  intro bs
  induction bs with
  | nil =>
      intro completed _ k i hi
      simp [List.getD] at hi
  | cons b rest ih =>
      intro completed hdl k i hi d hd
      obtain ⟨hhead, htail⟩ := hdl
      cases k with
      | zero =>
          exact Or.inl (hhead i (by simpa [List.getD] using hi) d hd)
      | succ k' =>
          have hi' : i ∈ rest.getD k' [] := by simpa [List.getD] using hi
          rcases ih (completed ++ b) htail k' i hi' d hd with h | h
          · rcases List.mem_append.1 h with h1 | h2
            · exact Or.inl h1
            · refine Or.inr ?_
              simp only [List.take, List.flatten, List.mem_append]
              exact Or.inl h2
          · refine Or.inr ?_
            simp only [List.take, List.flatten, List.mem_append]
            exact Or.inr h

/-! ### C1 concrete three-stage example -/

def exampleStageA : StageDefinition :=
  { id := "A", name := "Stage A", stage_type := "action", action := some "noop" }

def exampleStageB : StageDefinition :=
  { id := "B", name := "Stage B", stage_type := "action", action := some "noop",
    depends_on := ["A"] }

def exampleStageC : StageDefinition :=
  { id := "C", name := "Stage C", stage_type := "action", action := some "noop",
    depends_on := ["A"] }

def examplePipelineABC : PipelineDefinition :=
  { name := "abc", stages := [exampleStageA, exampleStageB, exampleStageC] }

/-- C1: for every pipeline definition with unique stage ids whose
dependencies all reference existing stages and whose dependency graph is
acyclic, `get_execution_order` (`_topological_sort`) succeeds and returns
batches that contain every stage id exactly once, and every `depends_on`
id of a stage appears in a strictly earlier batch than the stage itself;
on the concrete three-stage example (A; B and C depending on A) the
result is `[[A], [B, C]]`. -/
theorem scheduler_batches_partition_and_respect_deps
    (p : PipelineDefinition)
    (hnodup : (p.stages.map (·.id)).Nodup)
    (hclosed : ∀ s ∈ p.stages, ∀ d ∈ s.depends_on, d ∈ p.stages.map (·.id))
    (hacyc : AcyclicDeps p.stages) :
    (∃ bs, p.get_execution_order = some bs ∧
      (∀ i ∈ p.stages.map (·.id), bs.flatten.count i = 1) ∧
      (∀ i, i ∉ p.stages.map (·.id) → bs.flatten.count i = 0) ∧
      (∀ s ∈ p.stages, ∀ k, s.id ∈ bs.getD k [] →
        ∀ d ∈ s.depends_on, d ∈ (bs.take k).flatten)) ∧
    examplePipelineABC.get_execution_order = some [["A"], ["B", "C"]] := by
  obtain ⟨rank, hrank⟩ := hacyc
  have hids : dedupFirst (p.stages.map (·.id)) = p.stages.map (·.id) :=
    dedupFirst_eq_self hnodup
  have hrank' : ∀ i, ∀ d ∈ depsOf p.stages i, rank d < rank i :=
    depsOf_rank hrank
  have hclosed' : ∀ i ∈ p.stages.map (·.id), ∀ d ∈ depsOf p.stages i,
      (d ∈ ([] : List String)) ∨ d ∈ p.stages.map (·.id) := by
    intro i _ d hd
    unfold depsOf at hd
    cases hm : stage_map p.stages i with
    | none => rw [hm] at hd; cases hd
    | some s =>
        rw [hm] at hd
        exact Or.inr (hclosed s (stage_map_spec hm).1 d hd)
  obtain ⟨bs, hbs⟩ := topoAux_complete (depsOf p.stages) rank hrank'
    (p.stages.map (·.id)).length (p.stages.map (·.id)) [] (le_refl _) hclosed'
  have hbs' : p.get_execution_order = some bs := by
    unfold PipelineDefinition.get_execution_order topologicalSort
    rw [hids]
    exact hbs
  obtain ⟨hperm, hdl⟩ := topoAux_sound (depsOf p.stages) _ _ _ _ hbs
  refine ⟨⟨bs, hbs', ?_, ?_, ?_⟩, ?_⟩
  · intro i hi
    rw [hperm.count_eq]
    exact List.count_eq_one_of_mem hnodup hi
  · intro i hi
    rw [hperm.count_eq]
    exact List.count_eq_zero_of_not_mem hi
  · intro s hs k hk d hd
    have hdeps : depsOf p.stages s.id = s.depends_on := by
      unfold depsOf
      rw [stage_map_eq_of_nodup hnodup hs]
    rcases depsLayered_take (depsOf p.stages) bs [] hdl k s.id hk d
        (hdeps ▸ hd) with h | h
    · cases h
    · exact h
  · rfl

/-- Witness for C1 at the concrete three-stage pipeline. -/
theorem scheduler_batches_partition_and_respect_deps_witness :
    (∃ bs, examplePipelineABC.get_execution_order = some bs ∧
      (∀ i ∈ examplePipelineABC.stages.map (·.id), bs.flatten.count i = 1) ∧
      (∀ i, i ∉ examplePipelineABC.stages.map (·.id) → bs.flatten.count i = 0) ∧
      (∀ s ∈ examplePipelineABC.stages, ∀ k, s.id ∈ bs.getD k [] →
        ∀ d ∈ s.depends_on, d ∈ (bs.take k).flatten)) ∧
    examplePipelineABC.get_execution_order = some [["A"], ["B", "C"]] :=
  scheduler_batches_partition_and_respect_deps examplePipelineABC
    (by decide)
    (by decide)
    ⟨fun i => if i = "A" then 0 else 1, by decide⟩

/-! ## Decidable equality for `Json`

Python object equality (`==`) as used by the validator for ids appearing
in `depends_on` lists and for membership tests.  Structural equality;
Python's cross-type numeric equalities (`True == 1`, `1 == 1.0`) are
outside the embedding — no claim compares ids of different types. -/

mutual

def Json.decEq : (a b : Json) → Decidable (a = b)
  | .null, .null => isTrue rfl
  | .null, .bool _ => isFalse (fun h => Json.noConfusion h)
  | .null, .num _ => isFalse (fun h => Json.noConfusion h)
  | .null, .str _ => isFalse (fun h => Json.noConfusion h)
  | .null, .arr _ => isFalse (fun h => Json.noConfusion h)
  | .null, .obj _ => isFalse (fun h => Json.noConfusion h)
  | .bool _, .null => isFalse (fun h => Json.noConfusion h)
  | .bool x, .bool y =>
      if h : x = y then isTrue (by rw [h])
      else isFalse (fun he => h (by injection he))
  | .bool _, .num _ => isFalse (fun h => Json.noConfusion h)
  | .bool _, .str _ => isFalse (fun h => Json.noConfusion h)
  | .bool _, .arr _ => isFalse (fun h => Json.noConfusion h)
  | .bool _, .obj _ => isFalse (fun h => Json.noConfusion h)
  | .num _, .null => isFalse (fun h => Json.noConfusion h)
  | .num _, .bool _ => isFalse (fun h => Json.noConfusion h)
  | .num x, .num y =>
      if h : x = y then isTrue (by rw [h])
      else isFalse (fun he => h (by injection he))
  | .num _, .str _ => isFalse (fun h => Json.noConfusion h)
  | .num _, .arr _ => isFalse (fun h => Json.noConfusion h)
  | .num _, .obj _ => isFalse (fun h => Json.noConfusion h)
  | .str _, .null => isFalse (fun h => Json.noConfusion h)
  | .str _, .bool _ => isFalse (fun h => Json.noConfusion h)
  | .str _, .num _ => isFalse (fun h => Json.noConfusion h)
  | .str x, .str y =>
      if h : x = y then isTrue (by rw [h])
      else isFalse (fun he => h (by injection he))
  | .str _, .arr _ => isFalse (fun h => Json.noConfusion h)
  | .str _, .obj _ => isFalse (fun h => Json.noConfusion h)
  | .arr _, .null => isFalse (fun h => Json.noConfusion h)
  | .arr _, .bool _ => isFalse (fun h => Json.noConfusion h)
  | .arr _, .num _ => isFalse (fun h => Json.noConfusion h)
  | .arr _, .str _ => isFalse (fun h => Json.noConfusion h)
  | .arr xs, .arr ys =>
      match Json.decEqList xs ys with
      | isTrue h => isTrue (by rw [h])
      | isFalse h => isFalse (fun he => h (by injection he))
  | .arr _, .obj _ => isFalse (fun h => Json.noConfusion h)
  | .obj _, .null => isFalse (fun h => Json.noConfusion h)
  | .obj _, .bool _ => isFalse (fun h => Json.noConfusion h)
  | .obj _, .num _ => isFalse (fun h => Json.noConfusion h)
  | .obj _, .str _ => isFalse (fun h => Json.noConfusion h)
  | .obj _, .arr _ => isFalse (fun h => Json.noConfusion h)
  | .obj xs, .obj ys =>
      match Json.decEqFields xs ys with
      | isTrue h => isTrue (by rw [h])
      | isFalse h => isFalse (fun he => h (by injection he))

def Json.decEqList : (a b : List Json) → Decidable (a = b)
  | [], [] => isTrue rfl
  | [], _ :: _ => isFalse (fun h => List.noConfusion h)
  | _ :: _, [] => isFalse (fun h => List.noConfusion h)
  | x :: xs, y :: ys =>
      match Json.decEq x y with
      | isFalse h => isFalse (fun he => h (by injection he))
      | isTrue h1 =>
          match Json.decEqList xs ys with
          | isTrue h2 => isTrue (by rw [h1, h2])
          | isFalse h2 => isFalse (fun he => h2 (by injection he))

def Json.decEqFields : (a b : List (String × Json)) → Decidable (a = b)
  | [], [] => isTrue rfl
  | [], _ :: _ => isFalse (fun h => List.noConfusion h)
  | _ :: _, [] => isFalse (fun h => List.noConfusion h)
  | (k1, v1) :: xs, (k2, v2) :: ys =>
      if hk : k1 = k2 then
        match Json.decEq v1 v2 with
        | isFalse h =>
            isFalse (fun he => by
              injection he with he1 _
              exact h (congrArg Prod.snd he1))
        | isTrue h1 =>
            match Json.decEqFields xs ys with
            | isTrue h2 => isTrue (by rw [hk, h1, h2])
            | isFalse h2 => isFalse (fun he => h2 (by injection he))
      else
        isFalse (fun he => by
          injection he with he1 _
          exact hk (congrArg Prod.fst he1))

end

instance : DecidableEq Json := Json.decEq

/-! ## Validator (`pipeline_validator.py`)

The validator operates on the parsed YAML tree (a `Json`), collecting
`ValidationError`s.  Python-level exceptions (`TypeError`,
`AttributeError`) escaping `validate` are modelled with `Except String`.
The YAML parser and Jinja2 syntax checker are external libraries: the
parse outcome is the `Option Json` input (`none` = `yaml.YAMLError`), and
template syntax checking is a `String → Bool` parameter. -/

inductive ValidationSeverity where
  | error : ValidationSeverity
  | warning : ValidationSeverity
deriving DecidableEq

structure ValidationError where
  code : String
  message : String
  location : String
  severity : ValidationSeverity
deriving DecidableEq

structure ValidationResult where
  valid : Bool
  errors : List ValidationError := []
  warnings : List ValidationError := []
  credential_status : List (String × Json) := []
  estimated_duration_seconds : Int := 0

/-- Python `str(x)` for scalar values as used in f-string error messages
(container rendering is approximated; no claim inspects it). -/
def pyStr : Json → String
  | .null => "None"
  | .bool true => "True"
  | .bool false => "False"
  | .num l => l
  | .str s => s
  | .arr _ => "[...]"
  | .obj _ => "..."

/-- Python iteration `for x in v`: lists yield elements, strings their
characters, dicts their keys; `None`, booleans and numbers raise
`TypeError`. -/
def pyIter (v : Json) : Except String (List Json) :=
  match v with
  | .arr xs => .ok xs
  | .str s => .ok (s.toList.map (fun c => .str (String.mk [c])))
  | .obj fs => .ok (fs.map (fun kv => Json.str kv.1))
  | _ => .error "TypeError: object is not iterable"

/-- Python membership test against a `set`: hashing an unhashable value
(list, dict) raises `TypeError`. -/
def pySetMem (x : Json) (s : List Json) : Except String Bool :=
  match x with
  | .arr _ => .error "TypeError: unhashable type"
  | .obj _ => .error "TypeError: unhashable type"
  | _ => .ok (decide (x ∈ s))

/-- Substring search over character lists. -/
def containsSubAux (h n : List Char) : Bool :=
  match h with
  | [] => n.isEmpty
  | _ :: t => n.isPrefixOf h || containsSubAux t n

/-- Python `needle in haystack` on strings. -/
def containsSub (haystack needle : String) : Bool :=
  containsSubAux haystack.toList needle.toList

def missingFieldErr (f : String) : ValidationError :=
  { code := "MISSING_REQUIRED_FIELD", message := "Missing required field: " ++ f,
    location := "root." ++ f, severity := .error }

/-- `_validate_structure`: `field not in pipeline` over the required set
(fixed here in `["name", "stages"]` order; CPython iterates the set in an
unspecified order and no claim depends on it).  Membership on a list
compares elements, on a string it is substring search, and on a
non-container it raises `TypeError`. -/
def validateStructure (pipeline : Json) : Except String (List ValidationError) :=
  match pipeline with
  | .obj fs =>
      .ok (((["name", "stages"].filter (fun f => (dictGet fs f).isNone)).map missingFieldErr))
  | .arr xs =>
      .ok (((["name", "stages"].filter (fun f => decide (Json.str f ∉ xs))).map missingFieldErr))
  | .str s =>
      .ok (((["name", "stages"].filter (fun f => !(containsSub s f))).map missingFieldErr))
  | _ => .error "TypeError: argument is not iterable"

/-- `pipeline.get("stages", [])`: `AttributeError` on a non-dict. -/
def getStages (pipeline : Json) : Except String Json :=
  match pipeline with
  | .obj fs => .ok ((dictGet fs "stages").getD (.arr []))
  | _ => .error "AttributeError: object has no attribute get"

/-- Per-stage loop of `_validate_stages`: required fields, duplicate ids,
persona/action classification, timeout warning. -/
def validateStagesLoop : List Json → Nat → List Json →
    Except String (List ValidationError × List ValidationError)
  | [], _, _ => .ok ([], [])
  | stage :: rest, i, stage_ids =>
      match stage with
      | .obj fs =>
          let loc := "stages[" ++ toString i ++ "]"
          let reqErrs := (["id", "name"].filter (fun f => (dictGet fs f).isNone)).map
            (fun f =>
              { code := "MISSING_REQUIRED_FIELD",
                message := "Stage missing required field: " ++ f,
                location := loc ++ "." ++ f, severity := .error })
          let stage_id := (dictGet fs "id").getD .null
          match pySetMem stage_id stage_ids with
          | .error e => .error e
          | .ok isDup =>
              let dupErrs := if isDup then
                  [{ code := "DUPLICATE_STAGE_ID",
                     message := "Duplicate stage ID: " ++ pyStr stage_id,
                     location := loc ++ ".id",
                     severity := ValidationSeverity.error }] else []
              let stage_ids' := if stage_id.truthy then stage_id :: stage_ids
                else stage_ids
              let personaErrs :=
                if (dictGet fs "persona").isNone ∧
                    ¬ (dictGet fs "type" = some (.str "action")) then
                  [{ code := "INVALID_STAGE",
                     message := "Stage must have persona or type: action",
                     location := loc, severity := ValidationSeverity.error }] else []
              let warns := if (dictGet fs "timeout_seconds").isNone then
                  [{ code := "MISSING_TIMEOUT",
                     message := "Stage should specify timeout_seconds",
                     location := loc, severity := ValidationSeverity.warning }] else []
              match validateStagesLoop rest (i + 1) stage_ids' with
              | .error e => .error e
              | .ok (errs, ws) =>
                  .ok (reqErrs ++ dupErrs ++ personaErrs ++ errs, warns ++ ws)
      | _ => .error "AttributeError: object has no attribute get"

def atLeastOneStageErr : ValidationError :=
  { code := "MISSING_REQUIRED_FIELD",
    message := "Pipeline must have at least one stage",
    location := "stages", severity := .error }

/-- `_validate_stages`. -/
def validateStages (stages : Json) :
    Except String (List ValidationError × List ValidationError) :=
  if stages.truthy = false then
    .ok ([atLeastOneStageErr], [])
  else
    match pyIter stages with
    | .error e => .error e
    | .ok items => validateStagesLoop items 0 []

/-- `{s.get("id") for s in stages if s.get("id")}`: the truthy ids, in
iteration order (set semantics are only used through membership).  Adding
an unhashable id raises. -/
def collectStageIds : List Json → Except String (List Json)
  | [] => .ok []
  | s :: rest =>
      match s with
      | .obj fs =>
          let sid := (dictGet fs "id").getD .null
          if sid.truthy then
            match sid with
            | .arr _ => .error "TypeError: unhashable type"
            | .obj _ => .error "TypeError: unhashable type"
            | _ =>
                match collectStageIds rest with
                | .error e => .error e
                | .ok ids => .ok (sid :: ids)
          else collectStageIds rest
      | _ => .error "AttributeError: object has no attribute get"

/-- `graph[stage_id].add(dep)`: set-add on an adjacency list entry. -/
def graphAdd (adj : List (Json × List Json)) (k dep : Json) :
    List (Json × List Json) :=
  match adj with
  | [] => []
  | (k', ds) :: rest =>
      if k' = k then
        (k', if dep ∈ ds then ds else ds ++ [dep]) :: rest
      else (k', ds) :: graphAdd rest k dep

/-- `graph.get(node, set())`. -/
def adjGet (adj : List (Json × List Json)) (k : Json) : List Json :=
  match adj with
  | [] => []
  | (k', ds) :: rest => if k' = k then ds else adjGet rest k

def missingRefErr (sid dep : Json) (fld : String) : ValidationError :=
  { code := "MISSING_STAGE_REF",
    message := "Stage " ++ pyStr sid ++ " references non-existent stage " ++ pyStr dep,
    location := "stages[" ++ pyStr sid ++ "]." ++ fld,
    severity := .error }

/-- Inner loop over one stage's `depends_on`: unknown references produce
errors, known ones become graph edges. -/
def processDeps (sid : Json) (stage_ids : List Json) :
    List Json → List (Json × List Json) →
    Except String (List ValidationError × List (Json × List Json))
  | [], adj => .ok ([], adj)
  | dep :: rest, adj =>
      match pySetMem dep stage_ids with
      | .error e => .error e
      | .ok isMem =>
          if isMem then processDeps sid stage_ids rest (graphAdd adj sid dep)
          else
            match processDeps sid stage_ids rest adj with
            | .error e => .error e
            | .ok (errs, adj') => .ok (missingRefErr sid dep "depends_on" :: errs, adj')

/-- Inner loop over one stage's `parallel_with` (reference check only). -/
def processParallel (sid : Json) (stage_ids : List Json) :
    List Json → Except String (List ValidationError)
  | [] => .ok []
  | p :: rest =>
      match pySetMem p stage_ids with
      | .error e => .error e
      | .ok isMem =>
          match processParallel sid stage_ids rest with
          | .error e => .error e
          | .ok errs =>
              if isMem then .ok errs
              else .ok (missingRefErr sid p "parallel_with" :: errs)

/-- The edge/reference-collection loop of `_validate_dependencies`. -/
def buildDepsErrs (stage_ids : List Json) :
    List Json → List (Json × List Json) →
    Except String (List ValidationError × List (Json × List Json))
  | [], adj => .ok ([], adj)
  | stage :: rest, adj =>
      match stage with
      | .obj fs =>
          let sid := (dictGet fs "id").getD .null
          if sid.truthy = false then buildDepsErrs stage_ids rest adj
          else
            match pyIter ((dictGet fs "depends_on").getD (.arr [])) with
            | .error e => .error e
            | .ok deps =>
                match processDeps sid stage_ids deps adj with
                | .error e => .error e
                | .ok (depErrs, adj') =>
                    match pyIter ((dictGet fs "parallel_with").getD (.arr [])) with
                    | .error e => .error e
                    | .ok pars =>
                        match processParallel sid stage_ids pars with
                        | .error e => .error e
                        | .ok parErrs =>
                            match buildDepsErrs stage_ids rest adj' with
                            | .error e => .error e
                            | .ok (errs, adjF) =>
                                .ok (depErrs ++ parErrs ++ errs, adjF)
      | _ => .error "AttributeError: object has no attribute get"

/-- Mutable state of the cycle-detection DFS: `visited`, the recursion
stack, and the errors appended so far. -/
structure DfsState (α : Type) where
  visited : List α
  recStack : List α
  cycleErrs : List ValidationError

def circularErr {α : Type} (shw : α → String) (cycle : List α) : ValidationError :=
  { code := "CIRCULAR_DEPENDENCY",
    message := "Circular dependency detected: " ++
      String.intercalate " -> " (cycle.map shw),
    location := "stages.depends_on", severity := .error }

mutual

/-- `has_cycle(node, path)` of `_validate_dependencies`: mark the node
visited and on the stack, then scan its neighbors.  `fuel` bounds the
recursion depth (the Python recursion is bounded by the number of
unvisited nodes; the fuel-0 branch is unreachable for the fuel supplied
by `dfsAll`). -/
def hasCycleDfs {α : Type} [DecidableEq α] (adjf : α → List α) (shw : α → String) :
    Nat → α → List α → DfsState α → Bool × DfsState α
  | 0, _, _, st => (false, st)
  | fuel + 1, node, path, st =>
      visitNeighbors adjf shw fuel (adjf node) node path
        ⟨node :: st.visited, node :: st.recStack, st.cycleErrs⟩
termination_by fuel node path st => (fuel, 0)

/-- The `for neighbor in graph.get(node, set())` loop with its early
returns; the empty case removes the node from the recursion stack and
reports no cycle. -/
def visitNeighbors {α : Type} [DecidableEq α] (adjf : α → List α) (shw : α → String) :
    Nat → List α → α → List α → DfsState α → Bool × DfsState α
  | _, [], node, _, st => (false, ⟨st.visited, st.recStack.erase node, st.cycleErrs⟩)
  | fuel, n :: ns, node, path, st =>
      if n ∉ st.visited then
        match hasCycleDfs adjf shw fuel n (path ++ [node]) st with
        | (true, st') => (true, st')
        | (false, st') => visitNeighbors adjf shw fuel ns node path st'
      else if n ∈ st.recStack then
        (true, ⟨st.visited, st.recStack,
          st.cycleErrs ++ [circularErr shw (path ++ [node, n])]⟩)
      else visitNeighbors adjf shw fuel ns node path st
termination_by fuel ns node path st => (fuel, ns.length + 1)

end

/-- The `for stage_id in graph: if stage_id not in visited: has_cycle(...)`
loop. -/
def dfsAll {α : Type} [DecidableEq α] (adjf : α → List α) (shw : α → String)
    (fuel : Nat) : List α → DfsState α → DfsState α
  | [], st => st
  | k :: ks, st =>
      if k ∈ st.visited then dfsAll adjf shw fuel ks st
      else dfsAll adjf shw fuel ks (hasCycleDfs adjf shw fuel k [] st).2

/-- `_validate_dependencies`. -/
def validateDependencies (stages : Json) : Except String (List ValidationError) :=
  match pyIter stages with
  | .error e => .error e
  | .ok items =>
      match collectStageIds items with
      | .error e => .error e
      | .ok stage_ids =>
          let keys := dedupFirst stage_ids
          let adj0 := keys.map (fun k => (k, ([] : List Json)))
          match buildDepsErrs stage_ids items adj0 with
          | .error e => .error e
          | .ok (refErrs, adj) =>
              let st := dfsAll (adjGet adj) pyStr (keys.length + 1) keys ⟨[], [], []⟩
              .ok (refErrs ++ st.cycleErrs)

mutual

/-- `_extract_templates`: every string containing the `\x7b\x7b` marker,
with its JSON-pointer-like location path. -/
def extractTemplates : Json → String → List (String × String)
  | .str s, path => if containsSub s "\x7b\x7b" then [(path, s)] else []
  | .obj fs, path => extractTemplatesFields fs path
  | .arr xs, path => extractTemplatesItems xs path 0
  | _, _ => []
termination_by j _ => sizeOf j

def extractTemplatesFields : List (String × Json) → String → List (String × String)
  | [], _ => []
  | (k, v) :: rest, path =>
      extractTemplates v (if path.isEmpty then k else path ++ "." ++ k) ++
        extractTemplatesFields rest path
termination_by l _ => sizeOf l

def extractTemplatesItems : List Json → String → Nat → List (String × String)
  | [], _, _ => []
  | x :: rest, path, i =>
      extractTemplates x (path ++ "[" ++ toString i ++ "]") ++
        extractTemplatesItems rest path (i + 1)
termination_by l _ _ => sizeOf l

end

/-- `_validate_templates`: check each extracted template with the external
Jinja2 parser (`tp`). -/
def validateTemplates (tp : String → Bool) (pipeline : Json) :
    List ValidationError :=
  (extractTemplates pipeline "").filterMap (fun lt =>
    if tp lt.2 then none
    else some { code := "TEMPLATE_ERROR",
                message := "Invalid template syntax",
                location := lt.1, severity := .error })

/-- `_estimate_duration`: sum of `timeout_seconds // 2` with default 120.
Integer-valued timeouts only (a float timeout divides as a float in
Python; floating point is outside the embedding, and a non-numeric
timeout raises `TypeError`). -/
def estimateLoop : List Json → Except String Int
  | [] => .ok 0
  | stage :: rest =>
      match stage with
      | .obj fs =>
          let t : Except String Int :=
            match dictGet fs "timeout_seconds" with
            | none => .ok 120
            | some (.num l) =>
                match l.toInt? with
                | some n => .ok n
                | none => .error "TypeError: unsupported operand"
            | some _ => .error "TypeError: unsupported operand"
          match t with
          | .error e => .error e
          | .ok n =>
              match estimateLoop rest with
              | .error e => .error e
              | .ok m => .ok (n / 2 + m)
      | _ => .error "AttributeError: object has no attribute get"

def estimateDuration (stages : Json) : Except String Int :=
  match pyIter stages with
  | .error e => .error e
  | .ok items => estimateLoop items

/-- `_extract_required_credentials`: scan stage configs/personas/actions
for provider signatures.  Returns the required-credential set in insertion
order. -/
def addCred (c : String) (l : List String) : List String :=
  if c ∈ l then l else l ++ [c]

def extractRequiredCreds : List Json → List String → Except String (List String)
  | [], creds => .ok creds
  | stage :: rest, creds =>
      match stage with
      | .obj fs =>
          let cfgVal := (dictGet fs "config").getD (.obj [])
          match cfgVal with
          | .obj cfs =>
              let modelVal := (dictGet cfs "model").getD (.str "")
              match modelVal with
              | .str model =>
                  let creds1 :=
                    if containsSub model.toLower "gemini" then addCred "gemini" creds
                    else if containsSub model.toLower "claude" ∨
                        containsSub model.toLower "anthropic" then
                      addCred "anthropic" creds
                    else creds
                  match (dictGet fs "persona").getD (.str "") with
                  | .str persona =>
                      let creds2 :=
                        if containsSub persona.toLower "vision" then
                          addCred "gemini" creds1
                        else creds1
                      match (dictGet fs "action").getD (.str "") with
                      | .str action =>
                          let creds3 :=
                            if action.startsWith "git." then addCred "github" creds2
                            else creds2
                          let creds4 :=
                            match (dictGet fs "input_template").getD (.str "") with
                            | .str tpl =>
                                if containsSub tpl.toLower "gemini" then
                                  addCred "gemini" creds3
                                else creds3
                            | _ => creds3
                          extractRequiredCreds rest creds4
                      | _ => .error "AttributeError: lower on non-string"
                  | _ => .error "AttributeError: lower on non-string"
              | _ => .error "AttributeError: lower on non-string"
          | _ => .error "AttributeError: object has no attribute get"
      | _ => .error "AttributeError: object has no attribute get"

/-- `_validate_credentials`: probe each required provider (the probes are
external network calls, abstracted as `probe`; unknown credential types
are skipped), then append an `INVALID_CREDENTIAL` error for every status
that is not truthy-`valid`. -/
def runCredProbes (probe : String → Json) : List String → List (String × Json)
  | [] => []
  | c :: rest =>
      (if c = "gemini" ∨ c = "github" ∨ c = "anthropic" then [(c, probe c)]
       else []) ++ runCredProbes probe rest

def credErrsOf : List (String × Json) → Except String (List ValidationError)
  | [] => .ok []
  | (c, status) :: rest =>
      match status with
      | .obj sfs =>
          let ok := ((dictGet sfs "valid").getD .null).truthy
          match credErrsOf rest with
          | .error e => .error e
          | .ok errs =>
              if ok then .ok errs
              else
                .ok ({ code := "INVALID_CREDENTIAL",
                       message := c ++ ": " ++
                         pyStr ((dictGet sfs "error").getD (.str "Unknown error")),
                       location := "credentials." ++ c,
                       severity := ValidationSeverity.error } :: errs)
      | _ => .error "AttributeError: object has no attribute get"

def validateCredentialsStep (probe : String → Json) (pipeline : Json) :
    Except String (List (String × Json) × List ValidationError) :=
  match getStages pipeline with
  | .error e => .error e
  | .ok stagesVal =>
      match pyIter stagesVal with
      | .error e => .error e
      | .ok items =>
          match extractRequiredCreds items [] with
          | .error e => .error e
          | .ok required =>
              let results := runCredProbes probe required
              match credErrsOf results with
              | .error e => .error e
              | .ok errs => .ok (results, errs)

/-- `_build_result`: `valid` iff the accumulated error list is empty. -/
def buildResult (errors warnings : List ValidationError)
    (creds : List (String × Json)) (dur : Int) : ValidationResult :=
  { valid := errors.isEmpty, errors := errors, warnings := warnings,
    credential_status := creds, estimated_duration_seconds := dur }

/-- `PipelineValidator.validate`.  `parsed` is the outcome of the external
YAML parse (`none` = `yaml.YAMLError`, which contributes an
`INVALID_YAML` error); `tp` is the external Jinja2 syntax checker;
`probe` the external credential probes. -/
def validate (tp : String → Bool) (probe : String → Json)
    (parsed : Option Json) (validate_credentials : Bool) :
    Except String ValidationResult :=
  let errs0 : List ValidationError :=
    match parsed with
    | none => [{ code := "INVALID_YAML", message := "YAML parse error",
                 location := "root", severity := .error }]
    | some _ => []
  let pipeline := parsed.getD .null
  if pipeline.truthy = false then
    .ok (buildResult errs0 [] [] 0)
  else
    match validateStructure pipeline with
    | .error e => .error e
    | .ok structErrs =>
        match getStages pipeline with
        | .error e => .error e
        | .ok stagesVal =>
            match validateStages stagesVal with
            | .error e => .error e
            | .ok (stageErrs, warns) =>
                match validateDependencies stagesVal with
                | .error e => .error e
                | .ok depErrs =>
                    let tmplErrs := validateTemplates tp pipeline
                    let errsSoFar :=
                      errs0 ++ structErrs ++ stageErrs ++ depErrs ++ tmplErrs
                    match (if validate_credentials ∧ errsSoFar.isEmpty then
                        validateCredentialsStep probe pipeline
                      else .ok ([], [])) with
                    | .error e => .error e
                    | .ok (credStatus, credErrs) =>
                        match estimateDuration stagesVal with
                        | .error e => .error e
                        | .ok dur =>
                            .ok (buildResult (errsSoFar ++ credErrs) warns
                              credStatus dur)

/-! ### Shapes on which the validator completes without a Python-level
exception (used as hypotheses by the validator claims; the claims'
concrete inputs all satisfy them). -/

def isStrB : Json → Bool
  | .str _ => true
  | _ => false

def isObjB : Json → Bool
  | .obj _ => true
  | _ => false

def strListOk : Option Json → Bool
  | none => true
  | some (.arr ds) => ds.all isStrB
  | some _ => false

def strOrAbsent : Option Json → Bool
  | none => true
  | some (.str _) => true
  | some _ => false

/-- A stage mapping with a string (or absent) id, lists of strings for
`depends_on`/`parallel_with`, an integer (or absent) timeout, and string
(or absent) persona/action/model. -/
def stageShapeOk (s : Json) : Bool :=
  match s with
  | .obj fs =>
      strOrAbsent (dictGet fs "id") &&
      strListOk (dictGet fs "depends_on") &&
      strListOk (dictGet fs "parallel_with") &&
      (match dictGet fs "timeout_seconds" with
       | none => true
       | some (.num l) => l.toInt?.isSome
       | some _ => false) &&
      strOrAbsent (dictGet fs "persona") &&
      strOrAbsent (dictGet fs "action") &&
      (match dictGet fs "config" with
       | none => true
       | some (.obj cfs) => strOrAbsent (dictGet cfs "model")
       | some _ => false)
  | _ => false

/-- A `stages` entry on which validation completes: absent, an empty
container/string, or a list of well-shaped stage mappings. -/
def stagesShapeOk : Option Json → Bool
  | none => true
  | some (.arr ss) => ss.all stageShapeOk
  | some (.str s) => s.isEmpty
  | some (.obj fs) => fs.isEmpty
  | some _ => false

lemma validateStagesLoop_ok {ss : List Json} (h : ss.all stageShapeOk = true) :
    ∀ i ids, ∃ p, validateStagesLoop ss i ids = .ok p := by
  induction ss with
  | nil => intro i ids; exact ⟨_, rfl⟩
  | cons stage rest ih =>
      intro i ids
      simp only [List.all_cons, Bool.and_eq_true] at h
      obtain ⟨hs, hrest⟩ := h
      cases stage
      case obj fs =>
        simp only [validateStagesLoop]
        have hsid : ∃ b, pySetMem ((dictGet fs "id").getD .null) ids = .ok b := by
          simp only [stageShapeOk, Bool.and_eq_true] at hs
          have hid := hs.1.1.1.1.1.1
          cases hdg : dictGet fs "id" with
          | none => exact ⟨_, rfl⟩
          | some v =>
              rw [hdg] at hid
              cases v
              case str s => exact ⟨_, rfl⟩
              all_goals simp [strOrAbsent] at hid
        obtain ⟨b, hb⟩ := hsid
        rw [hb]
        obtain ⟨p, hp⟩ := ih hrest (i + 1)
          (if ((dictGet fs "id").getD .null).truthy then
            (dictGet fs "id").getD .null :: ids else ids)
        rw [hp]
        exact ⟨_, rfl⟩
      all_goals simp [stageShapeOk] at hs

lemma validateStages_ok {v : Json} (h : stagesShapeOk (some v) = true) :
    ∃ p, validateStages v = .ok p := by
  cases v
  case arr ss =>
      cases ss with
      | nil => exact ⟨_, rfl⟩
      | cons s rest =>
          simp only [validateStages, Json.truthy, List.isEmpty_cons,
            Bool.not_false]
          simp only [pyIter]
          exact validateStagesLoop_ok (by simpa [stagesShapeOk] using h) 0 []
  case str s =>
      simp only [stagesShapeOk] at h
      simp [validateStages, Json.truthy, h]
  case obj fs =>
      simp only [stagesShapeOk] at h
      rw [List.isEmpty_iff] at h
      subst h
      exact ⟨_, rfl⟩
  all_goals simp [stagesShapeOk] at h

lemma collectStageIds_ok {ss : List Json} (h : ss.all stageShapeOk = true) :
    ∃ ids, collectStageIds ss = .ok ids := by
  induction ss with
  | nil => exact ⟨_, rfl⟩
  | cons stage rest ih =>
      simp only [List.all_cons, Bool.and_eq_true] at h
      obtain ⟨hs, hrest⟩ := h
      obtain ⟨ids, hids⟩ := ih hrest
      cases stage
      case obj fs =>
        simp only [stageShapeOk, Bool.and_eq_true] at hs
        have hid := hs.1.1.1.1.1.1
        simp only [collectStageIds]
        cases hdg : dictGet fs "id" with
        | none => simp [Json.truthy, hids]
        | some v =>
            rw [hdg] at hid
            cases v
            case str s =>
                simp only [Option.getD]
                by_cases ht : (Json.str s).truthy
                · simp [ht, hids]
                · simp [ht, hids]
            all_goals simp [strOrAbsent] at hid
      all_goals simp [stageShapeOk] at hs

lemma processDeps_ok {deps : List Json} (h : deps.all isStrB = true)
    (sid : Json) (ids : List Json) :
    ∀ adj, ∃ p, processDeps sid ids deps adj = .ok p := by
  induction deps with
  | nil => intro adj; exact ⟨_, rfl⟩
  | cons d rest ih =>
      intro adj
      simp only [List.all_cons, Bool.and_eq_true] at h
      obtain ⟨hd, hrest⟩ := h
      cases d
      case str s =>
        simp only [processDeps, pySetMem]
        obtain ⟨p, hp⟩ := ih hrest (graphAdd adj sid (.str s))
        obtain ⟨q, hq⟩ := ih hrest adj
        by_cases hm : Json.str s ∈ ids
        · simp [hm, hp]
        · simp [hm, hq]
      all_goals simp [isStrB] at hd

lemma processParallel_ok {ps : List Json} (h : ps.all isStrB = true)
    (sid : Json) (ids : List Json) :
    ∃ p, processParallel sid ids ps = .ok p := by
  induction ps with
  | nil => exact ⟨_, rfl⟩
  | cons d rest ih =>
      simp only [List.all_cons, Bool.and_eq_true] at h
      obtain ⟨hd, hrest⟩ := h
      cases d
      case str s =>
        obtain ⟨p, hp⟩ := ih hrest
        simp only [processParallel, pySetMem, hp]
        by_cases hm : Json.str s ∈ ids
        · simp [hm]
        · simp [hm]
      all_goals simp [isStrB] at hd

lemma buildDepsErrs_ok {ss : List Json} (h : ss.all stageShapeOk = true)
    (ids : List Json) :
    ∀ adj, ∃ p, buildDepsErrs ids ss adj = .ok p := by
  induction ss with
  | nil => intro adj; exact ⟨_, rfl⟩
  | cons stage rest ih =>
      intro adj
      simp only [List.all_cons, Bool.and_eq_true] at h
      obtain ⟨hs, hrest⟩ := h
      cases stage
      case obj fs =>
        simp only [stageShapeOk, Bool.and_eq_true] at hs
        simp only [buildDepsErrs]
        by_cases ht : ((dictGet fs "id").getD .null).truthy
        · rw [if_neg (by simp [ht])]
          have hdeps : ∃ ds, pyIter ((dictGet fs "depends_on").getD (.arr [])) =
              .ok ds ∧ ds.all isStrB = true := by
            have hdl := hs.1.1.1.1.1.2
            cases hdg : dictGet fs "depends_on" with
            | none => exact ⟨[], rfl, rfl⟩
            | some v =>
                rw [hdg] at hdl
                cases v
                case arr ds => exact ⟨ds, rfl, by simpa [strListOk] using hdl⟩
                all_goals simp [strListOk] at hdl
          obtain ⟨ds, hds, hdsall⟩ := hdeps
          obtain ⟨⟨dErrs, adj'⟩, hpd⟩ :=
            processDeps_ok hdsall ((dictGet fs "id").getD .null) ids adj
          have hpars : ∃ ps, pyIter ((dictGet fs "parallel_with").getD (.arr [])) =
              .ok ps ∧ ps.all isStrB = true := by
            have hpl := hs.1.1.1.1.2
            cases hdg : dictGet fs "parallel_with" with
            | none => exact ⟨[], rfl, rfl⟩
            | some v =>
                rw [hdg] at hpl
                cases v
                case arr ps => exact ⟨ps, rfl, by simpa [strListOk] using hpl⟩
                all_goals simp [strListOk] at hpl
          obtain ⟨ps, hps, hpsall⟩ := hpars
          obtain ⟨q, hq⟩ :=
            processParallel_ok hpsall ((dictGet fs "id").getD .null) ids
          obtain ⟨r, hr⟩ := ih hrest adj'
          simp only [hds, hpd, hps, hq, hr]
          exact ⟨_, rfl⟩
        · rw [if_pos (by simpa using ht)]
          exact ih hrest adj
      all_goals simp [stageShapeOk] at hs

lemma validateDependencies_ok {v : Json} (h : stagesShapeOk (some v) = true) :
    ∃ p, validateDependencies v = .ok p := by
  cases v
  case arr ss =>
      have hss : ss.all stageShapeOk = true := by simpa [stagesShapeOk] using h
      simp only [validateDependencies, pyIter]
      obtain ⟨ids, hids⟩ := collectStageIds_ok hss
      obtain ⟨⟨refErrs, adj⟩, hbd⟩ := buildDepsErrs_ok hss ids
        ((dedupFirst ids).map (fun k => (k, ([] : List Json))))
      simp only [hids, hbd]
      exact ⟨_, rfl⟩
  case str s =>
      simp only [stagesShapeOk] at h
      rw [String.isEmpty_iff] at h
      subst h
      exact ⟨_, rfl⟩
  case obj fs =>
      simp only [stagesShapeOk] at h
      rw [List.isEmpty_iff] at h
      subst h
      exact ⟨_, rfl⟩
  all_goals simp [stagesShapeOk] at h

lemma estimateLoop_ok {ss : List Json} (h : ss.all stageShapeOk = true) :
    ∃ d, estimateLoop ss = .ok d := by
  induction ss with
  | nil => exact ⟨_, rfl⟩
  | cons stage rest ih =>
      simp only [List.all_cons, Bool.and_eq_true] at h
      obtain ⟨hs, hrest⟩ := h
      obtain ⟨d, hd⟩ := ih hrest
      cases stage
      case obj fs =>
        simp only [stageShapeOk, Bool.and_eq_true] at hs
        have htm := hs.1.1.1.2
        simp only [estimateLoop]
        cases hdg : dictGet fs "timeout_seconds" with
        | none => simp [hd]
        | some v =>
            rw [hdg] at htm
            cases v
            case num l =>
                obtain ⟨n, hn⟩ := Option.isSome_iff_exists.1 htm
                simp [hn, hd]
            all_goals simp at htm
      all_goals simp [stageShapeOk] at hs

lemma estimateDuration_ok {v : Json} (h : stagesShapeOk (some v) = true) :
    ∃ d, estimateDuration v = .ok d := by
  cases v
  case arr ss =>
      simp only [estimateDuration, pyIter]
      exact estimateLoop_ok (by simpa [stagesShapeOk] using h)
  case str s =>
      simp only [stagesShapeOk] at h
      rw [String.isEmpty_iff] at h
      subst h
      exact ⟨_, rfl⟩
  case obj fs =>
      simp only [stagesShapeOk] at h
      rw [List.isEmpty_iff] at h
      subst h
      exact ⟨_, rfl⟩
  all_goals simp [stagesShapeOk] at h

lemma extractRequiredCreds_ok {ss : List Json} (h : ss.all stageShapeOk = true) :
    ∀ creds, ∃ cs, extractRequiredCreds ss creds = .ok cs := by
  induction ss with
  | nil => intro creds; exact ⟨_, rfl⟩
  | cons stage rest ih =>
      intro creds
      simp only [List.all_cons, Bool.and_eq_true] at h
      obtain ⟨hs, hrest⟩ := h
      cases stage
      case obj fs =>
        simp only [stageShapeOk, Bool.and_eq_true] at hs
        have hcfg := hs.2
        have hper := hs.1.1.2
        have hact := hs.1.2
        simp only [extractRequiredCreds]
        have hcfgOk : ∃ cfs, (dictGet fs "config").getD (.obj []) = .obj cfs ∧
            strOrAbsent (dictGet cfs "model") = true := by
          cases hdg : dictGet fs "config" with
          | none => exact ⟨[], rfl, rfl⟩
          | some v =>
              rw [hdg] at hcfg
              cases v
              case obj cfs => exact ⟨cfs, rfl, hcfg⟩
              all_goals simp at hcfg
        obtain ⟨cfs, hcfs, hmodel⟩ := hcfgOk
        have hmodelOk : ∃ m, (dictGet cfs "model").getD (.str "") = .str m := by
          cases hdg : dictGet cfs "model" with
          | none => exact ⟨"", rfl⟩
          | some v =>
              rw [hdg] at hmodel
              cases v
              case str m => exact ⟨m, rfl⟩
              all_goals simp [strOrAbsent] at hmodel
        obtain ⟨m, hm⟩ := hmodelOk
        have hperOk : ∃ pv, (dictGet fs "persona").getD (.str "") = .str pv := by
          cases hdg : dictGet fs "persona" with
          | none => exact ⟨"", rfl⟩
          | some v =>
              rw [hdg] at hper
              cases v
              case str pv => exact ⟨pv, rfl⟩
              all_goals simp [strOrAbsent] at hper
        obtain ⟨pv, hpv⟩ := hperOk
        have hactOk : ∃ av, (dictGet fs "action").getD (.str "") = .str av := by
          cases hdg : dictGet fs "action" with
          | none => exact ⟨"", rfl⟩
          | some v =>
              rw [hdg] at hact
              cases v
              case str av => exact ⟨av, rfl⟩
              all_goals simp [strOrAbsent] at hact
        obtain ⟨av, hav⟩ := hactOk
        simp only [hcfs, hm, hpv, hav]
        exact ih hrest _
      all_goals simp [stageShapeOk] at hs

lemma credErrsOf_ok {results : List (String × Json)}
    (h : results.all (fun cv => isObjB cv.2) = true) :
    ∃ errs, credErrsOf results = .ok errs := by
  induction results with
  | nil => exact ⟨_, rfl⟩
  | cons cv rest ih =>
      simp only [List.all_cons, Bool.and_eq_true] at h
      obtain ⟨hc, hrest⟩ := h
      obtain ⟨errs, herrs⟩ := ih hrest
      obtain ⟨c, status⟩ := cv
      cases status
      case obj sfs =>
        simp only [credErrsOf, herrs]
        by_cases ht : ((dictGet sfs "valid").getD .null).truthy
        · simp [ht]
        · simp [ht]
      all_goals simp [isObjB] at hc

lemma runCredProbes_all_obj (probe : String → Json)
    (hprobe : ∀ c, isObjB (probe c) = true) :
    ∀ required, (runCredProbes probe required).all (fun cv => isObjB cv.2) = true := by
  intro required
  induction required with
  | nil => rfl
  | cons c rest ih =>
      simp only [runCredProbes]
      by_cases hc : c = "gemini" ∨ c = "github" ∨ c = "anthropic"
      · simp [hc, hprobe c, ih]
      · simp [hc, ih]

lemma validateCredentialsStep_ok {fs : List (String × Json)}
    (h : stagesShapeOk (dictGet fs "stages") = true)
    (probe : String → Json) (hprobe : ∀ c, isObjB (probe c) = true) :
    ∃ p, validateCredentialsStep probe (.obj fs) = .ok p := by
  simp only [validateCredentialsStep, getStages]
  have hstages : ∃ ss, pyIter ((dictGet fs "stages").getD (.arr [])) = .ok ss ∧
      ss.all stageShapeOk = true := by
    cases hdg : dictGet fs "stages" with
    | none => exact ⟨[], rfl, rfl⟩
    | some v =>
        rw [hdg] at h
        cases v
        case arr ss => exact ⟨ss, rfl, by simpa [stagesShapeOk] using h⟩
        case str s =>
            simp only [stagesShapeOk] at h
            rw [String.isEmpty_iff] at h
            subst h
            exact ⟨[], rfl, rfl⟩
        case obj ofs =>
            simp only [stagesShapeOk] at h
            rw [List.isEmpty_iff] at h
            subst h
            exact ⟨[], rfl, rfl⟩
        all_goals simp [stagesShapeOk] at h
  obtain ⟨ss, hss, hssall⟩ := hstages
  obtain ⟨cs, hcs⟩ := extractRequiredCreds_ok hssall []
  obtain ⟨errs, herrs⟩ := credErrsOf_ok (runCredProbes_all_obj probe hprobe cs)
  simp only [hss, hcs, herrs]
  exact ⟨_, rfl⟩

lemma validate_returns_buildResult {tp : String → Bool} {probe : String → Json}
    {parsed : Option Json} {vc : Bool} {r : ValidationResult}
    (h : validate tp probe parsed vc = .ok r) :
    ∃ e w c d, r = buildResult e w c d := by
  cases parsed with
  | none =>
      simp only [validate, Option.getD, Json.truthy] at h
      rw [if_pos trivial] at h
      injection h with h
      exact ⟨_, _, _, _, h.symm⟩
  | some doc =>
      by_cases ht : doc.truthy = false
      · simp only [validate, Option.getD] at h
        rw [if_pos ht] at h
        injection h with h
        exact ⟨_, _, _, _, h.symm⟩
      · simp only [validate, Option.getD] at h
        rw [if_neg ht] at h
        repeat' split at h
        all_goals first
          | exact Except.noConfusion h
          | (injection h with h; exact ⟨_, _, _, _, h.symm⟩)

lemma stagesShapeOk_getD {o : Option Json} (h : stagesShapeOk o = true) :
    stagesShapeOk (some (o.getD (.arr []))) = true := by
  cases o with
  | none => rfl
  | some v => exact h

/-- C7 (amended): `validate` returns `valid = true` iff the accumulated
error list is empty (warnings never affect validity); and for every
parsed source that is a non-empty mapping whose `stages` entry has a shape
on which validation completes (absent, an empty container, or a list of
well-shaped stage mappings), each absent required field contributes a
`MISSING_REQUIRED_FIELD` error to the result rather than an exception.
The original claim fails on falsy parsed documents (for example the empty
mapping), which short-circuit with `valid = true` and no errors. -/
theorem validator_valid_iff_no_errors_and_missing_field_errors :
    (∀ (tp : String → Bool) (probe : String → Json) (parsed : Option Json)
        (vc : Bool) (r : ValidationResult),
        validate tp probe parsed vc = .ok r →
        (r.valid = true ↔ r.errors = [])) ∧
    (∀ (tp : String → Bool) (probe : String → Json) (vc : Bool)
        (fs : List (String × Json)),
        fs ≠ [] →
        stagesShapeOk (dictGet fs "stages") = true →
        (∀ c, isObjB (probe c) = true) →
        ∃ r, validate tp probe (some (.obj fs)) vc = .ok r ∧
          (r.valid = true ↔ r.errors = []) ∧
          ((dictGet fs "name").isNone → missingFieldErr "name" ∈ r.errors) ∧
          ((dictGet fs "stages").isNone → missingFieldErr "stages" ∈ r.errors) ∧
          (((dictGet fs "stages").getD (.arr [])).truthy = false →
            atLeastOneStageErr ∈ r.errors)) := by
  constructor
  · intro tp probe parsed vc r h
    obtain ⟨e, w, c, d, rfl⟩ := validate_returns_buildResult h
    simp [buildResult, List.isEmpty_iff]
  · intro tp probe vc fs hne hshape hprobe
    have hshape' : stagesShapeOk (some ((dictGet fs "stages").getD (.arr []))) = true :=
      stagesShapeOk_getD hshape
    obtain ⟨⟨stageErrs, warns⟩, hstages⟩ := validateStages_ok hshape'
    obtain ⟨depErrs, hdeps⟩ := validateDependencies_ok hshape'
    obtain ⟨dur, hdur⟩ := estimateDuration_ok hshape'
    set structErrs : List ValidationError :=
      (["name", "stages"].filter
        (fun f => (dictGet fs f).isNone)).map missingFieldErr with hstruct
    set tmplErrs := validateTemplates tp (.obj fs) with htmpl
    set errsSoFar : List ValidationError :=
      [] ++ structErrs ++ stageErrs ++ depErrs ++ tmplErrs with herrsSoFar
    have hcred : ∃ cs ce, (if vc ∧ errsSoFar.isEmpty then
        validateCredentialsStep probe (.obj fs)
      else .ok ([], [])) = .ok (cs, ce) := by
      by_cases hc : vc ∧ errsSoFar.isEmpty
      · rw [if_pos hc]
        obtain ⟨⟨cs, ce⟩, hp⟩ := validateCredentialsStep_ok hshape probe hprobe
        exact ⟨cs, ce, hp⟩
      · rw [if_neg hc]
        exact ⟨[], [], rfl⟩
    obtain ⟨credStatus, credErrs, hcredEq⟩ := hcred
    refine ⟨buildResult (errsSoFar ++ credErrs) warns credStatus dur, ?_, ?_, ?_, ?_, ?_⟩
    · show validate tp probe (some (.obj fs)) vc = _
      unfold validate
      rw [if_neg (by simp [Json.truthy, List.isEmpty_iff, hne])]
      simp only [Option.getD_some, validateStructure, getStages, hstages,
        hdeps, hdur, ← hstruct, ← htmpl, ← herrsSoFar, hcredEq]
    · simp [buildResult, List.isEmpty_iff]
    · intro hname
      have h1 : missingFieldErr "name" ∈ structErrs := by
        rw [hstruct]
        refine List.mem_map.2 ⟨"name", ?_, rfl⟩
        refine List.mem_filter.2 ⟨by simp, by simpa using hname⟩
      simp only [buildResult, herrsSoFar]
      simp [List.mem_append, h1]
    · intro hstagesAbsent
      have h1 : missingFieldErr "stages" ∈ structErrs := by
        rw [hstruct]
        refine List.mem_map.2 ⟨"stages", ?_, rfl⟩
        refine List.mem_filter.2 ⟨by simp, by simpa using hstagesAbsent⟩
      simp only [buildResult, herrsSoFar]
      simp [List.mem_append, h1]
    · intro hfalsy
      have h1 : validateStages ((dictGet fs "stages").getD (.arr [])) =
          .ok ([atLeastOneStageErr], []) := by
        unfold validateStages
        rw [if_pos hfalsy]
      rw [h1] at hstages
      injection hstages with hstages
      have h2 : [atLeastOneStageErr] = stageErrs := congrArg Prod.fst hstages
      have hmem : atLeastOneStageErr ∈ stageErrs := by
        rw [← h2]
        exact List.mem_cons_self _ _
      simp only [buildResult, herrsSoFar]
      simp [List.mem_append, hmem]

/-- C7 counterexample: the empty mapping is a parsed source from which
both `name` and `stages` are absent, yet `validate` short-circuits on the
falsy document and returns `valid = true` with an empty error list
(rather than `MISSING_REQUIRED_FIELD` errors). -/
theorem validator_empty_mapping_counterexample :
    validate (fun _ => true) (fun _ => Json.null) (some (.obj [])) true =
      .ok (buildResult [] [] [] 0) ∧
    (buildResult [] [] [] 0).valid = true ∧
    (buildResult [] [] [] 0).errors = [] ∧
    dictGet ([] : List (String × Json)) "name" = none ∧
    dictGet ([] : List (String × Json)) "stages" = none :=
  ⟨rfl, rfl, rfl, rfl, rfl⟩

/-- Witness for C7 at a concrete non-empty mapping lacking both required
fields. -/
theorem validator_valid_iff_no_errors_witness :
    ∃ r, validate (fun _ => true) (fun _ => Json.obj [])
        (some (.obj [("description", Json.str "x")])) true = .ok r ∧
      (r.valid = true ↔ r.errors = []) ∧
      missingFieldErr "name" ∈ r.errors ∧
      missingFieldErr "stages" ∈ r.errors := by
  obtain ⟨r, h1, _, h3, h4, _⟩ :=
    validator_valid_iff_no_errors_and_missing_field_errors.2
      (fun _ => true) (fun _ => Json.obj []) true
      [("description", Json.str "x")]
      (by simp) rfl (fun _ => rfl)
  exact ⟨r, h1,
    validator_valid_iff_no_errors_and_missing_field_errors.1 _ _ _ _ r h1,
    h3 rfl, h4 rfl⟩

/-! ### Cycle detection completeness (for C5)

A cycle along a step relation, the standard rank argument refuting one,
and the clean-run analysis of the DFS: if the DFS appends no
`CIRCULAR_DEPENDENCY` error, its finish order is a topological order, so
the graph is acyclic. -/

/-- Consecutive pairs of the list are edges. -/
def ChainEdges {α : Type} (edge : α → α → Prop) : List α → Prop
  | [] => True
  | [_] => True
  | a :: b :: rest => edge a b ∧ ChainEdges edge (b :: rest)

/-- A (nonempty) cycle: following the list and returning to its head
always steps along edges. -/
def IsCycle {α : Type} (edge : α → α → Prop) (c : List α) : Prop :=
  match c with
  | [] => False
  | a :: _ => ChainEdges edge (c ++ [a])

lemma chainEdges_rank_last {α : Type} {edge : α → α → Prop} {rank : α → Nat}
    (hr : ∀ u v, edge u v → rank v < rank u) :
    ∀ (l : List α) (a : α), ChainEdges edge (a :: l) → l ≠ [] →
      rank (l.getLastD a) < rank a := by
  intro l
  induction l with
  | nil => intro a _ h; exact absurd rfl h
  | cons b t ih =>
      intro a hchain _
      obtain ⟨hab, htail⟩ := hchain
      rw [List.getLastD_cons]
      by_cases ht : t = []
      · subst ht
        simpa using hr a b hab
      · exact lt_trans (ih b htail ht) (hr a b hab)

lemma isCycle_no_rank {α : Type} {edge : α → α → Prop} {rank : α → Nat}
    (hr : ∀ u v, edge u v → rank v < rank u) (c : List α) :
    ¬ IsCycle edge c := by
  intro hcyc
  cases c with
  | nil => exact hcyc
  | cons a t =>
      have hchain : ChainEdges edge (a :: (t ++ [a])) := hcyc
      have hlast : (t ++ [a]).getLastD a = a := by
        rw [List.getLastD_eq_getLast?]
        simp
      have := chainEdges_rank_last hr (t ++ [a]) a hchain (by simp)
      rw [hlast] at this
      exact lt_irrefl _ this

/-- The errors a DFS call produces extend the input errors, and a `true`
verdict always comes with at least one new error appended. -/
lemma dfs_errs_spec {α : Type} [DecidableEq α]
    (adjf : α → List α) (shw : α → String) :
    ∀ fuel,
      (∀ node path st, ∃ t,
        (hasCycleDfs adjf shw fuel node path st).2.cycleErrs =
          st.cycleErrs ++ t ∧
        ((hasCycleDfs adjf shw fuel node path st).1 = true → t ≠ [])) ∧
      (∀ ns node path st, ∃ t,
        (visitNeighbors adjf shw fuel ns node path st).2.cycleErrs =
          st.cycleErrs ++ t ∧
        ((visitNeighbors adjf shw fuel ns node path st).1 = true → t ≠ [])) := by
  have hvisit : ∀ fuel,
      (∀ node path st, ∃ t,
        (hasCycleDfs adjf shw fuel node path st).2.cycleErrs =
          st.cycleErrs ++ t ∧
        ((hasCycleDfs adjf shw fuel node path st).1 = true → t ≠ [])) →
      (∀ ns node path st, ∃ t,
        (visitNeighbors adjf shw fuel ns node path st).2.cycleErrs =
          st.cycleErrs ++ t ∧
        ((visitNeighbors adjf shw fuel ns node path st).1 = true → t ≠ [])) := by
    intro fuel hP ns
    induction ns with
    | nil =>
        intro node path st
        exact ⟨[], by simp [visitNeighbors], by simp [visitNeighbors]⟩
    | cons n ns ihns =>
        intro node path st
        by_cases hv : n ∉ st.visited
        · rcases hres : hasCycleDfs adjf shw fuel n (path ++ [node]) st with ⟨b, st'⟩
          obtain ⟨t1, ht1, hb1⟩ := hP n (path ++ [node]) st
          rw [hres] at ht1 hb1
          cases b with
          | true =>
              refine ⟨t1, ?_, fun _ => hb1 rfl⟩
              simp only [visitNeighbors, if_pos hv, hres]
              exact ht1
          | false =>
              obtain ⟨t2, ht2, hb2⟩ := ihns node path st'
              refine ⟨t1 ++ t2, ?_, ?_⟩
              · simp only [visitNeighbors, if_pos hv, hres]
                rw [ht2, ht1, List.append_assoc]
              · intro htrue
                have : (visitNeighbors adjf shw fuel ns node path st').1 = true := by
                  simp only [visitNeighbors, if_pos hv, hres] at htrue
                  exact htrue
                have := hb2 this
                intro hcontra
                rw [List.append_eq_nil] at hcontra
                exact this hcontra.2
        · by_cases hr : n ∈ st.recStack
          · refine ⟨[circularErr shw (path ++ [node, n])], ?_, fun _ => by simp⟩
            simp only [visitNeighbors, if_neg hv, if_pos hr]
          · obtain ⟨t, ht, hb⟩ := ihns node path st
            refine ⟨t, ?_, ?_⟩
            · simp only [visitNeighbors, if_neg hv, if_neg hr]
              exact ht
            · intro htrue
              apply hb
              simp only [visitNeighbors, if_neg hv, if_neg hr] at htrue
              exact htrue
  intro fuel
  induction fuel with
  | zero =>
      have hP : ∀ node path st, ∃ t,
          (hasCycleDfs adjf shw 0 node path st).2.cycleErrs =
            st.cycleErrs ++ t ∧
          ((hasCycleDfs adjf shw 0 node path st).1 = true → t ≠ []) := by
        intro node path st
        exact ⟨[], by simp [hasCycleDfs], by simp [hasCycleDfs]⟩
      exact ⟨hP, hvisit 0 hP⟩
  | succ f ih =>
      have hP : ∀ node path st, ∃ t,
          (hasCycleDfs adjf shw (f + 1) node path st).2.cycleErrs =
            st.cycleErrs ++ t ∧
          ((hasCycleDfs adjf shw (f + 1) node path st).1 = true → t ≠ []) := by
        intro node path st
        obtain ⟨t, ht, hb⟩ := hvisit f ih.1 (adjf node) node path
          ⟨node :: st.visited, node :: st.recStack, st.cycleErrs⟩
        refine ⟨t, ?_, ?_⟩
        · simp only [hasCycleDfs]
          exact ht
        · intro htrue
          apply hb
          simp only [hasCycleDfs] at htrue
          exact htrue
      exact ⟨hP, hvisit (f + 1) hP⟩

/-- Every error the DFS appends is a `CIRCULAR_DEPENDENCY` error. -/
lemma dfs_errs_circ {α : Type} [DecidableEq α]
    (adjf : α → List α) (shw : α → String) :
    ∀ fuel,
      (∀ node path st,
        ∀ e ∈ (hasCycleDfs adjf shw fuel node path st).2.cycleErrs,
        e ∈ st.cycleErrs ∨ e.code = "CIRCULAR_DEPENDENCY") ∧
      (∀ ns node path st,
        ∀ e ∈ (visitNeighbors adjf shw fuel ns node path st).2.cycleErrs,
        e ∈ st.cycleErrs ∨ e.code = "CIRCULAR_DEPENDENCY") := by
  have hvisit : ∀ fuel,
      (∀ node path st,
        ∀ e ∈ (hasCycleDfs adjf shw fuel node path st).2.cycleErrs,
        e ∈ st.cycleErrs ∨ e.code = "CIRCULAR_DEPENDENCY") →
      (∀ ns node path st,
        ∀ e ∈ (visitNeighbors adjf shw fuel ns node path st).2.cycleErrs,
        e ∈ st.cycleErrs ∨ e.code = "CIRCULAR_DEPENDENCY") := by
    intro fuel hP ns
    induction ns with
    | nil =>
        intro node path st e he
        simp only [visitNeighbors] at he
        exact Or.inl he
    | cons n ns ihns =>
        intro node path st e he
        by_cases hv : n ∉ st.visited
        · rcases hres : hasCycleDfs adjf shw fuel n (path ++ [node]) st with ⟨b, st'⟩
          have hP' := hP n (path ++ [node]) st
          rw [hres] at hP'
          cases b with
          | true =>
              simp only [visitNeighbors, if_pos hv, hres] at he
              exact hP' e he
          | false =>
              simp only [visitNeighbors, if_pos hv, hres] at he
              rcases ihns node path st' e he with h1 | h2
              · exact hP' e h1
              · exact Or.inr h2
        · by_cases hr : n ∈ st.recStack
          · simp only [visitNeighbors, if_neg hv, if_pos hr] at he
            rcases List.mem_append.1 he with h1 | h2
            · exact Or.inl h1
            · rw [List.mem_singleton] at h2
              subst h2
              exact Or.inr rfl
          · simp only [visitNeighbors, if_neg hv, if_neg hr] at he
            exact ihns node path st e he
  intro fuel
  induction fuel with
  | zero =>
      have hP : ∀ node path st,
          ∀ e ∈ (hasCycleDfs adjf shw 0 node path st).2.cycleErrs,
          e ∈ st.cycleErrs ∨ e.code = "CIRCULAR_DEPENDENCY" := by
        intro node path st e he
        simp only [hasCycleDfs] at he
        exact Or.inl he
      exact ⟨hP, hvisit 0 hP⟩
  | succ f ih =>
      have hP : ∀ node path st,
          ∀ e ∈ (hasCycleDfs adjf shw (f + 1) node path st).2.cycleErrs,
          e ∈ st.cycleErrs ∨ e.code = "CIRCULAR_DEPENDENCY" := by
        intro node path st e he
        simp only [hasCycleDfs] at he
        exact hvisit f ih.1 (adjf node) node path
          ⟨node :: st.visited, node :: st.recStack, st.cycleErrs⟩ e he
      exact ⟨hP, hvisit (f + 1) hP⟩

lemma dfsAll_errs_circ {α : Type} [DecidableEq α] (adjf : α → List α)
    (shw : α → String) (fuel : Nat) :
    ∀ (ks : List α) (st : DfsState α),
      ∀ e ∈ (dfsAll adjf shw fuel ks st).cycleErrs,
      e ∈ st.cycleErrs ∨ e.code = "CIRCULAR_DEPENDENCY" := by
  intro ks
  induction ks with
  | nil =>
      intro st e he
      simp only [dfsAll] at he
      exact Or.inl he
  | cons k ks ih =>
      intro st e he
      by_cases hk : k ∈ st.visited
      · simp only [dfsAll, if_pos hk] at he
        exact ih st e he
      · simp only [dfsAll, if_neg hk] at he
        rcases ih _ e he with h1 | h2
        · exact (dfs_errs_circ adjf shw fuel).1 k [] st e h1
        · exact Or.inr h2

/-- Finish-order certificate for the DFS: every member's neighbors lie in
the part finished before it. -/
def FinList {α : Type} (adjf : α → List α) : List α → List α → Prop
  | _, [] => True
  | done, u :: rest =>
      (∀ v ∈ adjf u, v ∈ done) ∧ FinList adjf (done ++ [u]) rest

lemma finList_append {α : Type} (adjf : α → List α) :
    ∀ (L done : List α) (u : α),
      FinList adjf done L → (∀ v ∈ adjf u, v ∈ done ++ L) →
      FinList adjf done (L ++ [u]) := by
  intro L
  induction L with
  | nil =>
      intro done u _ hu
      exact ⟨by simpa using hu, trivial⟩
  | cons w rest ih =>
      intro done u hfl hu
      obtain ⟨hw, hrest⟩ := hfl
      refine ⟨hw, ih (done ++ [w]) u hrest ?_⟩
      intro v hv
      have h1 := hu v hv
      rw [List.append_cons] at h1
      exact h1

/-- Position of an element in a list (first occurrence). -/
def idxIn {α : Type} [DecidableEq α] : List α → α → Nat
  | [], _ => 0
  | x :: xs, a => if x = a then 0 else idxIn xs a + 1

lemma finList_idx {α : Type} [DecidableEq α] (adjf : α → List α) :
    ∀ (L done : List α), FinList adjf done L → L.Nodup →
      (∀ u ∈ L, u ∉ done) →
      ∀ u ∈ L, ∀ v ∈ adjf u, v ∈ done ∨ (v ∈ L ∧ idxIn L v < idxIn L u) := by
  intro L
  induction L with
  | nil => intro done _ _ _ u hu; cases hu
  | cons u0 rest ih =>
      intro done hfl hnd hfresh u hu v hv
      obtain ⟨h0, hrest⟩ := hfl
      simp only [List.nodup_cons] at hnd
      rcases List.mem_cons.1 hu with rfl | hu'
      · exact Or.inl (by exact (h0 v hv))
      · have hfresh' : ∀ w ∈ rest, w ∉ done ++ [u0] := by
          intro w hw
          simp only [List.mem_append, List.mem_singleton]
          push_neg
          exact ⟨hfresh w (List.mem_cons_of_mem _ hw), fun he => hnd.1 (he ▸ hw)⟩
        have hne2 : u0 ≠ u := by
          intro he
          exact hnd.1 (by rw [he]; exact hu')
        rcases ih (done ++ [u0]) hrest hnd.2 hfresh' u hu' v hv with h | ⟨hvr, hlt⟩
        · rcases List.mem_append.1 h with h1 | h2
          · exact Or.inl h1
          · rw [List.mem_singleton] at h2
            refine Or.inr ⟨by rw [h2]; exact List.mem_cons_self _ _, ?_⟩
            rw [h2]
            simp [idxIn, hne2]
        · have hne1 : u0 ≠ v := by
            intro he
            exact hnd.1 (by rw [he]; exact hvr)
          refine Or.inr ⟨List.mem_cons_of_mem _ hvr, ?_⟩
          simp only [idxIn, if_neg hne1, if_neg hne2]
          exact Nat.succ_lt_succ hlt

/-- Loop invariant of the cycle-detection DFS on a clean (error-free) run:
the finished nodes (visited and off the recursion stack) form, in finish
order, a list `L` whose every member has all neighbors finished earlier. -/
def DfsInv {α : Type} (adjf : α → List α) (st : DfsState α) (L : List α) : Prop :=
  L.Nodup ∧ st.recStack.Nodup ∧ (∀ u ∈ st.recStack, u ∈ st.visited) ∧
  (∀ u, u ∈ L ↔ (u ∈ st.visited ∧ u ∉ st.recStack)) ∧ FinList adjf [] L

lemma filter_imp_length_le {α : Type} (l : List α) (p q : α → Bool)
    (h : ∀ a ∈ l, p a = true → q a = true) :
    (l.filter p).length ≤ (l.filter q).length := by
  induction l with
  | nil => exact le_refl _
  | cons a as ih =>
      have ih' := ih (fun x hx => h x (List.mem_cons_of_mem _ hx))
      simp only [List.filter_cons]
      cases hp : p a
      · cases hq : q a
        · exact ih'
        · exact Nat.le_succ_of_le ih'
      · rw [h a (List.mem_cons_self _ _) hp]
        simpa using ih'

lemma unvisited_count_mono {α : Type} [DecidableEq α] (keys : List α)
    {v1 v2 : List α} (h : ∀ u ∈ v1, u ∈ v2) :
    (keys.filter (fun k => decide (k ∉ v2))).length ≤
      (keys.filter (fun k => decide (k ∉ v1))).length := by
  apply filter_imp_length_le
  intro a _ ha
  simp only [decide_eq_true_eq] at ha ⊢
  exact fun hav1 => ha (h a hav1)

lemma nodup_concat {α : Type} {l : List α} {a : α} (h : l.Nodup) (ha : a ∉ l) :
    (l ++ [a]).Nodup := by
  induction l with
  | nil => simp
  | cons x xs ih =>
      simp only [List.nodup_cons] at h
      simp only [List.cons_append, List.nodup_cons]
      refine ⟨?_, ih h.2 (fun hx => ha (List.mem_cons_of_mem _ hx))⟩
      intro hx
      rcases List.mem_append.1 hx with h1 | h2
      · exact h.1 h1
      · rw [List.mem_singleton] at h2
        exact ha (h2 ▸ List.mem_cons_self _ _)

/-- Clean-run property of `has_cycle` at a given fuel: a `false` verdict
extends the finish list with the node and everything it explored, leaves
the recursion stack as found, and only grows `visited`. -/
def HSpec {α : Type} [DecidableEq α] (adjf : α → List α) (shw : α → String)
    (keys : List α) (fuel : Nat) : Prop :=
  ∀ node path st st2 L,
    node ∈ keys → node ∉ st.visited →
    (keys.filter (fun k => decide (k ∉ st.visited))).length ≤ fuel →
    DfsInv adjf st L →
    hasCycleDfs adjf shw fuel node path st = (false, st2) →
    ∃ Δ, DfsInv adjf st2 (L ++ Δ) ∧ node ∈ Δ ∧
      st2.recStack = st.recStack ∧
      (∀ u, u ∈ st.visited → u ∈ st2.visited)

/-- Clean-run property of the neighbor loop at a given fuel. -/
def VSpec {α : Type} [DecidableEq α] (adjf : α → List α) (shw : α → String)
    (keys : List α) (fuel : Nat) : Prop :=
  ∀ ns node path st st2 L processed,
    adjf node = processed ++ ns →
    (∀ v ∈ processed, v ∈ L) →
    node ∈ st.recStack →
    (keys.filter (fun k => decide (k ∉ st.visited))).length ≤ fuel →
    DfsInv adjf st L →
    visitNeighbors adjf shw fuel ns node path st = (false, st2) →
    ∃ Δ, DfsInv adjf st2 ((L ++ Δ) ++ [node]) ∧
      st2.recStack = st.recStack.erase node ∧
      (∀ u, u ∈ st.visited → u ∈ st2.visited)

lemma vspec_of_hspec {α : Type} [DecidableEq α] (adjf : α → List α)
    (shw : α → String) (keys : List α)
    (hclosed : ∀ u, ∀ v ∈ adjf u, v ∈ keys) (fuel : Nat)
    (hH : HSpec adjf shw keys fuel) : VSpec adjf shw keys fuel := by
  intro ns
  induction ns with
  | nil =>
      intro node path st st2 L processed hadj hproc hrec hfuel hinv heq
      obtain ⟨hLnd, hSnd, hSV, hiff, hfin⟩ := hinv
      simp only [visitNeighbors] at heq
      injection heq with hb hst
      subst hst
      have hnodeVis : node ∈ st.visited := hSV node hrec
      have hnodeL : node ∉ L := fun h => ((hiff node).1 h).2 hrec
      refine ⟨[], ⟨?_, ?_, ?_, ?_, ?_⟩, rfl, fun u hu => hu⟩
      · rw [List.append_nil]
        exact nodup_concat hLnd hnodeL
      · exact hSnd.erase _
      · intro u hu
        exact hSV u (List.mem_of_mem_erase hu)
      · intro u
        rw [List.append_nil]
        constructor
        · intro hu
          rcases List.mem_append.1 hu with h1 | h2
          · obtain ⟨hv, hns⟩ := (hiff u).1 h1
            exact ⟨hv, fun he => hns (List.mem_of_mem_erase he)⟩
          · rw [List.mem_singleton] at h2
            subst h2
            refine ⟨hnodeVis, fun he => ?_⟩
            rw [hSnd.mem_erase_iff] at he
            exact he.1 rfl
        · rintro ⟨hv, hne⟩
          by_cases hun : u = node
          · subst hun
            exact List.mem_append.2 (Or.inr (List.mem_singleton.2 rfl))
          · refine List.mem_append.2 (Or.inl ((hiff u).2 ⟨hv, fun hu => ?_⟩))
            exact hne ((List.mem_erase_of_ne hun).2 hu)
      · rw [List.append_nil]
        refine finList_append adjf L [] node hfin ?_
        intro v hv
        rw [List.nil_append]
        rw [List.append_nil] at hadj
        exact hproc v (hadj ▸ hv)
  | cons n ns ihns =>
      intro node path st st2 L processed hadj hproc hrec hfuel hinv heq
      have hnkeys : n ∈ keys :=
        hclosed node n (by rw [hadj]; exact List.mem_append.2 (Or.inr (List.mem_cons_self _ _)))
      by_cases hv : n ∉ st.visited
      · rcases hres : hasCycleDfs adjf shw fuel n (path ++ [node]) st with ⟨b, st1⟩
        cases b with
        | true =>
            simp only [visitNeighbors, if_pos hv, hres] at heq
            exact absurd (congrArg Prod.fst heq) (by simp)
        | false =>
            simp only [visitNeighbors, if_pos hv, hres] at heq
            obtain ⟨Δ1, hinv1, hn1, hrs1, hvm1⟩ :=
              hH n (path ++ [node]) st st1 L hnkeys hv hfuel hinv hres
            obtain ⟨Δ2, hinv2, hrs2, hvm2⟩ :=
              ihns node path st1 st2 (L ++ Δ1) (processed ++ [n])
                (by rw [hadj, List.append_assoc]; rfl)
                (by
                  intro v hvp
                  rcases List.mem_append.1 hvp with h1 | h2
                  · exact List.mem_append.2 (Or.inl (hproc v h1))
                  · rw [List.mem_singleton] at h2
                    subst h2
                    exact List.mem_append.2 (Or.inr hn1))
                (by rw [hrs1]; exact hrec)
                (le_trans (unvisited_count_mono keys hvm1) hfuel)
                hinv1 heq
            refine ⟨Δ1 ++ Δ2, ?_, ?_, fun u hu => hvm2 u (hvm1 u hu)⟩
            · rw [← List.append_assoc]
              exact hinv2
            · rw [hrs2, hrs1]
      · by_cases hrn : n ∈ st.recStack
        · simp only [visitNeighbors, if_neg hv, if_pos hrn] at heq
          exact absurd (congrArg Prod.fst heq) (by simp)
        · simp only [visitNeighbors, if_neg hv, if_neg hrn] at heq
          rw [not_not] at hv
          have hnL : n ∈ L := (hinv.2.2.2.1 n).2 ⟨hv, hrn⟩
          exact ihns node path st st2 L (processed ++ [n])
            (by rw [hadj, List.append_assoc]; rfl)
            (by
              intro v hvp
              rcases List.mem_append.1 hvp with h1 | h2
              · exact hproc v h1
              · rw [List.mem_singleton] at h2
                subst h2
                exact hnL)
            hrec hfuel hinv heq

lemma hspec_zero {α : Type} [DecidableEq α] (adjf : α → List α)
    (shw : α → String) (keys : List α) : HSpec adjf shw keys 0 := by
  intro node path st st2 L hk hv hfuel _ _
  have : node ∈ keys.filter (fun k => decide (k ∉ st.visited)) :=
    List.mem_filter.2 ⟨hk, by simpa using hv⟩
  have := List.length_pos_of_mem this
  omega

lemma hspec_succ {α : Type} [DecidableEq α] (adjf : α → List α)
    (shw : α → String) (keys : List α)
    (f : Nat) (hV : VSpec adjf shw keys f) : HSpec adjf shw keys (f + 1) := by
  intro node path st st2 L hk hv hfuel hinv heq
  obtain ⟨hLnd, hSnd, hSV, hiff, hfin⟩ := hinv
  simp only [hasCycleDfs] at heq
  set st1 : DfsState α :=
    ⟨node :: st.visited, node :: st.recStack, st.cycleErrs⟩ with hst1
  have hnodeS : node ∉ st.recStack := fun h => hv (hSV node h)
  have hinv1 : DfsInv adjf st1 L := by
    refine ⟨hLnd, ?_, ?_, ?_, hfin⟩
    · simpa [hst1, List.nodup_cons] using ⟨hnodeS, hSnd⟩
    · intro u hu
      rcases List.mem_cons.1 hu with rfl | hu'
      · exact List.mem_cons_self _ _
      · exact List.mem_cons_of_mem _ (hSV u hu')
    · intro u
      constructor
      · intro huL
        obtain ⟨h1, h2⟩ := (hiff u).1 huL
        have hune : u ≠ node := fun he => hv (he ▸ h1)
        exact ⟨List.mem_cons_of_mem _ h1, fun hc => by
          rcases List.mem_cons.1 hc with he | hc'
          · exact hune he
          · exact h2 hc'⟩
      · rintro ⟨h1, h2⟩
        have hune : u ≠ node := fun he => h2 (by rw [he]; exact List.mem_cons_self _ _)
        refine (hiff u).2 ⟨?_, fun hc => h2 (List.mem_cons_of_mem _ hc)⟩
        rcases List.mem_cons.1 h1 with he | h1'
        · exact absurd he hune
        · exact h1'
  have hcount : (keys.filter (fun k => decide (k ∉ st1.visited))).length ≤ f := by
    have hfe : keys.filter (fun k => decide (k ∉ st1.visited)) =
        (keys.filter (fun k => decide (k ∉ st.visited))).filter
          (fun k => decide (k ≠ node)) := by
      rw [List.filter_filter]
      apply List.filter_congr
      intro a _
      simp only [hst1, List.mem_cons, decide_eq_true_eq, Bool.and_eq_true]
      by_cases h1 : a = node
      · simp [h1]
      · by_cases h2 : a ∈ st.visited
        · simp [h1, h2]
        · simp [h1, h2]
    have hmem : node ∈ keys.filter (fun k => decide (k ∉ st.visited)) :=
      List.mem_filter.2 ⟨hk, by simpa using hv⟩
    have := length_filter_lt (fun k => decide (k ≠ node))
      (keys.filter (fun k => decide (k ∉ st.visited))) node hmem (by simp)
    rw [hfe]
    omega
  obtain ⟨Δ, hinv2, hrs2, hvm2⟩ :=
    hV (adjf node) node path st1 st2 L [] rfl (by intro v hv; cases hv)
      (List.mem_cons_self _ _) hcount hinv1 heq
  refine ⟨Δ ++ [node], ?_, List.mem_append.2 (Or.inr (List.mem_singleton.2 rfl)),
    ?_, ?_⟩
  · rw [← List.append_assoc]
    exact hinv2
  · rw [hrs2, hst1]
    exact List.erase_cons_head node st.recStack
  · intro u hu
    exact hvm2 u (List.mem_cons_of_mem _ hu)

lemma dfs_clean_all {α : Type} [DecidableEq α] (adjf : α → List α)
    (shw : α → String) (keys : List α)
    (hclosed : ∀ u, ∀ v ∈ adjf u, v ∈ keys) :
    ∀ fuel, HSpec adjf shw keys fuel ∧ VSpec adjf shw keys fuel := by
  intro fuel
  induction fuel with
  | zero =>
      refine ⟨hspec_zero adjf shw keys, ?_⟩
      exact vspec_of_hspec adjf shw keys hclosed 0 (hspec_zero adjf shw keys)
  | succ f ih =>
      have hH := hspec_succ adjf shw keys f ih.2
      exact ⟨hH, vspec_of_hspec adjf shw keys hclosed (f + 1) hH⟩

lemma dfsAll_errs_mono {α : Type} [DecidableEq α] (adjf : α → List α)
    (shw : α → String) (fuel : Nat) :
    ∀ (ks : List α) (st : DfsState α),
      ∃ t, (dfsAll adjf shw fuel ks st).cycleErrs = st.cycleErrs ++ t := by
  intro ks
  induction ks with
  | nil => intro st; exact ⟨[], by simp [dfsAll]⟩
  | cons k ks ih =>
      intro st
      by_cases hk : k ∈ st.visited
      · obtain ⟨t, ht⟩ := ih st
        exact ⟨t, by simp only [dfsAll, if_pos hk]; exact ht⟩
      · obtain ⟨t1, ht1, _⟩ := (dfs_errs_spec adjf shw fuel).1 k [] st
        obtain ⟨t2, ht2⟩ := ih (hasCycleDfs adjf shw fuel k [] st).2
        refine ⟨t1 ++ t2, ?_⟩
        simp only [dfsAll, if_neg hk]
        rw [ht2, ht1, List.append_assoc]

lemma dfsAll_clean {α : Type} [DecidableEq α] (adjf : α → List α)
    (shw : α → String) (keys : List α)
    (hclosed : ∀ u, ∀ v ∈ adjf u, v ∈ keys) :
    ∀ (ks : List α) (st : DfsState α) (L : List α),
      (∀ k ∈ ks, k ∈ keys) → DfsInv adjf st L →
      (dfsAll adjf shw (keys.length + 1) ks st).cycleErrs = st.cycleErrs →
      ∃ L2, DfsInv adjf (dfsAll adjf shw (keys.length + 1) ks st) L2 ∧
        (∀ k ∈ ks, k ∈ (dfsAll adjf shw (keys.length + 1) ks st).visited) ∧
        (∀ u ∈ st.visited, u ∈ (dfsAll adjf shw (keys.length + 1) ks st).visited) ∧
        (dfsAll adjf shw (keys.length + 1) ks st).recStack = st.recStack := by
  intro ks
  induction ks with
  | nil =>
      intro st L _ hinv _
      exact ⟨L, by simpa [dfsAll] using hinv, by simp,
        by simp [dfsAll], by simp [dfsAll]⟩
  | cons k ks ih =>
      intro st L hkk hinv herrs
      by_cases hk : k ∈ st.visited
      · simp only [dfsAll, if_pos hk] at herrs ⊢
        obtain ⟨L2, h1, h2, h3, h4⟩ :=
          ih st L (fun x hx => hkk x (List.mem_cons_of_mem _ hx)) hinv herrs
        refine ⟨L2, h1, ?_, h3, h4⟩
        intro k' hk'
        rcases List.mem_cons.1 hk' with rfl | hk''
        · exact h3 k' hk
        · exact h2 k' hk''
      · rcases hres : hasCycleDfs adjf shw (keys.length + 1) k [] st with ⟨b, st1⟩
        obtain ⟨t1, ht1, hbt⟩ := (dfs_errs_spec adjf shw (keys.length + 1)).1 k [] st
        rw [hres] at ht1 hbt
        obtain ⟨t2, ht2⟩ := dfsAll_errs_mono adjf shw (keys.length + 1) ks st1
        simp only [dfsAll, if_neg hk, hres] at herrs ⊢
        have hnil : t1 ++ t2 = [] := by
          have : st.cycleErrs ++ (t1 ++ t2) = st.cycleErrs ++ [] := by
            rw [← List.append_assoc, ← ht1, ← ht2, List.append_nil]
            exact herrs
          exact List.append_cancel_left this
        rw [List.append_eq_nil] at hnil
        have hb : b = false := by
          cases b with
          | false => rfl
          | true => exact absurd hnil.1 (hbt rfl)
        subst hb
        obtain ⟨Δ, hinv1, hkΔ, hrs1, hvm1⟩ :=
          (dfs_clean_all adjf shw keys hclosed (keys.length + 1)).1 k [] st st1 L
            (hkk k (List.mem_cons_self _ _)) hk
            (le_trans (List.length_filter_le _ _) (Nat.le_succ _)) hinv hres
        have herrs1 : (dfsAll adjf shw (keys.length + 1) ks st1).cycleErrs =
            st1.cycleErrs := by
          rw [ht2, hnil.2, List.append_nil]
        obtain ⟨L2, h1, h2, h3, h4⟩ :=
          ih st1 (L ++ Δ) (fun x hx => hkk x (List.mem_cons_of_mem _ hx))
            hinv1 herrs1
        have hkvis1 : k ∈ st1.visited :=
          ((hinv1.2.2.2.1 k).1 (List.mem_append.2 (Or.inr hkΔ))).1
        refine ⟨L2, h1, ?_, ?_, ?_⟩
        · intro k' hk'
          rcases List.mem_cons.1 hk' with rfl | hk''
          · exact h3 k' hkvis1
          · exact h2 k' hk''
        · intro u hu
          exact h3 u (hvm1 u hu)
        · rw [h4, hrs1]

/-- If the whole DFS pass appends no error, the finish order ranks the
graph: every edge strictly decreases the rank, i.e. the graph is
acyclic. -/
lemma dfs_no_error_rank {α : Type} [DecidableEq α] (adjf : α → List α)
    (shw : α → String) (keys : List α)
    (hclosed : ∀ u, ∀ v ∈ adjf u, v ∈ keys)
    (herrs : (dfsAll adjf shw (keys.length + 1) keys ⟨[], [], []⟩).cycleErrs = []) :
    ∃ rank : α → Nat, ∀ u ∈ keys, ∀ v ∈ adjf u, rank v < rank u := by
  have hinv0 : DfsInv adjf ⟨[], [], []⟩ [] := by
    refine ⟨List.nodup_nil, List.nodup_nil, ?_, ?_, trivial⟩
    · intro u hu; cases hu
    · intro u; simp
  obtain ⟨L2, hinv2, hks, _, hrs⟩ :=
    dfsAll_clean adjf shw keys hclosed keys ⟨[], [], []⟩ []
      (fun k hk => hk) hinv0 herrs
  obtain ⟨hL2nd, _, _, hiff, hfin⟩ := hinv2
  refine ⟨fun u => idxIn L2 u, ?_⟩
  intro u hu v hv
  have huL : u ∈ L2 := (hiff u).2 ⟨hks u hu, by rw [hrs]; exact fun h => by cases h⟩
  rcases finList_idx adjf L2 [] hfin hL2nd (fun w _ hw => by cases hw) u huL v hv with
    h | ⟨_, hlt⟩
  · cases h
  · exact hlt

/-! ### From the document's dependency edges to the built adjacency list -/

lemma graphAdd_not_key {adj : List (Json × List Json)} {k : Json}
    (h : k ∉ adj.map Prod.fst) (d : Json) : graphAdd adj k d = adj := by
  induction adj with
  | nil => rfl
  | cons e rest ih =>
      obtain ⟨k', ds⟩ := e
      simp only [List.map_cons, List.mem_cons] at h
      push_neg at h
      simp only [graphAdd]
      rw [if_neg (fun he => h.1 he.symm), ih h.2]

lemma graphAdd_keys (adj : List (Json × List Json)) (k d : Json) :
    (graphAdd adj k d).map Prod.fst = adj.map Prod.fst := by
  induction adj with
  | nil => rfl
  | cons e rest ih =>
      obtain ⟨k', ds⟩ := e
      by_cases he : k' = k
      · simp [graphAdd, he]
      · simp only [graphAdd, if_neg he, List.map_cons, ih]

lemma adjGet_graphAdd_ne {adj : List (Json × List Json)} {u k : Json}
    (h : u ≠ k) (d : Json) : adjGet (graphAdd adj k d) u = adjGet adj u := by
  induction adj with
  | nil => rfl
  | cons e rest ih =>
      obtain ⟨k', ds⟩ := e
      by_cases he : k' = k
      · subst he
        simp only [graphAdd, if_pos rfl, adjGet]
        rw [if_neg (fun hc => h hc.symm), if_neg (fun hc => h hc.symm)]
      · simp only [graphAdd, if_neg he, adjGet]
        by_cases hu : k' = u
        · rw [if_pos hu, if_pos hu]
        · rw [if_neg hu, if_neg hu]
          exact ih

lemma adjGet_graphAdd_self {adj : List (Json × List Json)} {k : Json}
    (h : k ∈ adj.map Prod.fst) (d : Json) :
    adjGet (graphAdd adj k d) k =
      (if d ∈ adjGet adj k then adjGet adj k else adjGet adj k ++ [d]) := by
  induction adj with
  | nil => cases h
  | cons e rest ih =>
      obtain ⟨k', ds⟩ := e
      by_cases he : k' = k
      · subst he
        simp [graphAdd, adjGet]
      · simp only [List.map_cons, List.mem_cons] at h
        rcases h with h1 | h2
        · exact absurd h1.symm he
        · simp only [graphAdd, if_neg he, adjGet, if_neg he]
          exact ih h2

lemma mem_adjGet_graphAdd_of_mem {adj : List (Json × List Json)}
    {u k v d : Json} (h : v ∈ adjGet adj u) :
    v ∈ adjGet (graphAdd adj k d) u := by
  by_cases huk : u = k
  · subst huk
    by_cases hkey : u ∈ adj.map Prod.fst
    · rw [adjGet_graphAdd_self hkey]
      by_cases hd : d ∈ adjGet adj u
      · rw [if_pos hd]; exact h
      · rw [if_neg hd]; exact List.mem_append.2 (Or.inl h)
    · rw [graphAdd_not_key hkey]; exact h
  · rw [adjGet_graphAdd_ne huk]; exact h

lemma mem_adjGet_graphAdd_self {adj : List (Json × List Json)}
    {k : Json} (h : k ∈ adj.map Prod.fst) (d : Json) :
    d ∈ adjGet (graphAdd adj k d) k := by
  rw [adjGet_graphAdd_self h]
  by_cases hd : d ∈ adjGet adj k
  · rw [if_pos hd]; exact hd
  · rw [if_neg hd]; exact List.mem_append.2 (Or.inr (List.mem_singleton.2 rfl))

lemma mem_of_mem_adjGet_graphAdd {adj : List (Json × List Json)}
    {u k v d : Json} (h : v ∈ adjGet (graphAdd adj k d) u) :
    v ∈ adjGet adj u ∨ v = d := by
  by_cases huk : u = k
  · subst huk
    by_cases hkey : u ∈ adj.map Prod.fst
    · rw [adjGet_graphAdd_self hkey] at h
      by_cases hd : d ∈ adjGet adj u
      · rw [if_pos hd] at h; exact Or.inl h
      · rw [if_neg hd] at h
        rcases List.mem_append.1 h with h1 | h2
        · exact Or.inl h1
        · exact Or.inr (List.mem_singleton.1 h2)
    · rw [graphAdd_not_key hkey] at h; exact Or.inl h
  · rw [adjGet_graphAdd_ne huk] at h; exact Or.inl h

lemma processDeps_spec {sid : Json} {ids : List Json} :
    ∀ {deps : List Json} {adj adj' : List (Json × List Json)}
      {errs : List ValidationError},
      processDeps sid ids deps adj = .ok (errs, adj') →
      (adj'.map Prod.fst = adj.map Prod.fst) ∧
      (∀ u v, v ∈ adjGet adj u → v ∈ adjGet adj' u) ∧
      (∀ u v, v ∈ adjGet adj' u → v ∈ adjGet adj u ∨ (v ∈ ids ∧ u = sid)) ∧
      (sid ∈ adj.map Prod.fst →
        ∀ d ∈ deps, d ∈ ids → d ∈ adjGet adj' sid) := by
  intro deps
  induction deps with
  | nil =>
      intro adj adj' errs h
      injection h with h
      injection h with h1 h2
      subst h2
      exact ⟨rfl, fun _ _ hv => hv, fun _ _ hv => Or.inl hv, fun _ d hd => by cases hd⟩
  | cons dep rest ih =>
      intro adj adj' errs h
      simp only [processDeps] at h
      rcases hm : pySetMem dep ids with e | b
      · rw [hm] at h; cases h
      · rw [hm] at h
        have hbval : b = decide (dep ∈ ids) := by
          cases dep <;> simp_all [pySetMem]
        cases hb : b with
        | true =>
            rw [hb] at h
            simp only [if_true] at h
            have hdepIn : dep ∈ ids := by
              rw [hb] at hbval
              simpa using hbval.symm
            obtain ⟨hkeys, hmono, hclo, hadds⟩ := ih h
            refine ⟨by rw [hkeys, graphAdd_keys], ?_, ?_, ?_⟩
            · intro u v hv
              exact hmono u v (mem_adjGet_graphAdd_of_mem hv)
            · intro u v hv
              rcases hclo u v hv with h1 | h2
              · rcases mem_of_mem_adjGet_graphAdd h1 with h3 | h4
                · exact Or.inl h3
                · subst h4
                  by_cases hus : u = sid
                  · exact Or.inr ⟨hdepIn, hus⟩
                  · rw [adjGet_graphAdd_ne hus] at h1
                    exact Or.inl h1
              · exact Or.inr h2
            · intro hsid d hd hdids
              rcases List.mem_cons.1 hd with rfl | hd'
              · exact hmono sid d (mem_adjGet_graphAdd_self hsid d)
              · exact hadds (by rw [graphAdd_keys]; exact hsid) d hd' hdids
        | false =>
            rw [hb] at h
            simp only [Bool.false_eq_true, if_false] at h
            rcases hrec : processDeps sid ids rest adj with e | p
            · rw [hrec] at h; cases h
            · rw [hrec] at h
              obtain ⟨errs2, adj2⟩ := p
              injection h with h
              injection h with h1 h2
              subst h2
              obtain ⟨hkeys, hmono, hclo, hadds⟩ := ih hrec
              refine ⟨hkeys, hmono, hclo, ?_⟩
              intro hsid d hd hdids
              rcases List.mem_cons.1 hd with rfl | hd'
              · rw [hb] at hbval
                exact absurd hdids (by simpa using hbval.symm)
              · exact hadds hsid d hd' hdids

lemma collectStageIds_mem :
    ∀ {ss : List Json} {ids : List Json},
      collectStageIds ss = .ok ids →
      ∀ s ∈ ss, ∀ fs, s = .obj fs →
        ((dictGet fs "id").getD .null).truthy = true →
        (dictGet fs "id").getD .null ∈ ids := by
  intro ss
  induction ss with
  | nil => intro ids _ s hs; cases hs
  | cons s0 rest ih =>
      intro ids h s hs fs hsfs htr
      rcases List.mem_cons.1 hs with rfl | hs'
      · subst hsfs
        simp only [collectStageIds] at h
        rw [if_pos htr] at h
        rcases hid : (dictGet fs "id").getD .null with _ | _ | _ | _ | xs | ofs
        all_goals rw [hid] at h
        · rw [hid] at htr; cases htr
        all_goals first
          | (cases h)
          | (rcases hrec : collectStageIds rest with e | ids0
             · rw [hrec] at h; cases h
             · rw [hrec] at h
               injection h with h
               rw [← h, ← hid]
               exact List.mem_cons_self _ _)
      · cases s0 with
        | obj fs0 =>
            simp only [collectStageIds] at h
            by_cases htr0 : ((dictGet fs0 "id").getD .null).truthy
            · rw [if_pos htr0] at h
              rcases hid0 : (dictGet fs0 "id").getD .null with _ | _ | _ | _ | xs | ofs
              all_goals rw [hid0] at h
              all_goals first
                | (cases h)
                | (rcases hrec : collectStageIds rest with e | ids0
                   · rw [hrec] at h; cases h
                   · rw [hrec] at h
                     injection h with h
                     rw [← h]
                     exact List.mem_cons_of_mem _ (ih hrec s hs' fs hsfs htr))
            · rw [if_neg htr0] at h
              exact ih h s hs' fs hsfs htr
        | null => cases h
        | bool b => cases h
        | num l => cases h
        | str s1 => cases h
        | arr xs => cases h

lemma buildDepsErrs_spec {ids : List Json} :
    ∀ {ss : List Json} {adj adj' : List (Json × List Json)}
      {errs : List ValidationError},
      buildDepsErrs ids ss adj = .ok (errs, adj') →
      (adj'.map Prod.fst = adj.map Prod.fst) ∧
      (∀ u v, v ∈ adjGet adj u → v ∈ adjGet adj' u) ∧
      (∀ u v, v ∈ adjGet adj' u → v ∈ adjGet adj u ∨ v ∈ ids) ∧
      (∀ s ∈ ss, ∀ fs, s = .obj fs →
        ((dictGet fs "id").getD .null).truthy = true →
        (dictGet fs "id").getD .null ∈ adj.map Prod.fst →
        ∀ deps, pyIter ((dictGet fs "depends_on").getD (.arr [])) = .ok deps →
        ∀ d ∈ deps, d ∈ ids →
        d ∈ adjGet adj' ((dictGet fs "id").getD .null)) := by
  intro ss
  induction ss with
  | nil =>
      intro adj adj' errs h
      injection h with h
      injection h with h1 h2
      subst h2
      exact ⟨rfl, fun _ _ hv => hv, fun _ _ hv => Or.inl hv,
        fun s hs => by cases hs⟩
  | cons stage rest ih =>
      intro adj adj' errs h
      cases stage with
      | obj fs =>
          simp only [buildDepsErrs] at h
          by_cases htr : ((dictGet fs "id").getD .null).truthy
          · rw [if_neg (by simp [htr])] at h
            rcases hdi : pyIter ((dictGet fs "depends_on").getD (.arr [])) with
              e | deps
            · simp only [hdi] at h
              exact Except.noConfusion h
            · simp only [hdi] at h
              rcases hpd : processDeps ((dictGet fs "id").getD .null) ids deps adj
                  with e | p
              · simp only [hpd] at h
                exact Except.noConfusion h
              · simp only [hpd] at h
                obtain ⟨dErrs, adj1⟩ := p
                rcases hpi : pyIter ((dictGet fs "parallel_with").getD (.arr []))
                    with e | pars
                · simp only [hpi] at h
                  exact Except.noConfusion h
                · simp only [hpi] at h
                  rcases hpp : processParallel ((dictGet fs "id").getD .null)
                      ids pars with e | parErrs
                  · simp only [hpp] at h
                    exact Except.noConfusion h
                  · simp only [hpp] at h
                    rcases hrec : buildDepsErrs ids rest adj1 with e | q
                    · simp only [hrec] at h
                      exact Except.noConfusion h
                    · simp only [hrec] at h
                      obtain ⟨errs2, adjF⟩ := q
                      injection h with h
                      injection h with h1 h2
                      subst h2
                      obtain ⟨hk1, hm1, hc1, ha1⟩ := processDeps_spec hpd
                      obtain ⟨hk2, hm2, hc2, ha2⟩ := ih hrec
                      refine ⟨by rw [hk2, hk1], fun u v hv => hm2 u v (hm1 u v hv),
                        ?_, ?_⟩
                      · intro u v hv
                        rcases hc2 u v hv with h3 | h4
                        · rcases hc1 u v h3 with h5 | h6
                          · exact Or.inl h5
                          · exact Or.inr h6.1
                        · exact Or.inr h4
                      · intro s hs gfs hsgfs htr' hkey deps' hdeps' d hd hdids
                        rcases List.mem_cons.1 hs with rfl | hs'
                        · injection hsgfs with hfs
                          subst hfs
                          rw [hdi] at hdeps'
                          injection hdeps' with hdeps'
                          subst hdeps'
                          exact hm2 _ d (ha1 hkey d hd hdids)
                        · exact ha2 s hs' gfs hsgfs htr'
                            (by rw [hk1]; exact hkey) deps' hdeps' d hd hdids
          · rw [if_pos (by simpa using htr)] at h
            obtain ⟨hk2, hm2, hc2, ha2⟩ := ih h
            refine ⟨hk2, hm2, hc2, ?_⟩
            intro s hs gfs hsgfs htr' hkey deps' hdeps' d hd hdids
            rcases List.mem_cons.1 hs with rfl | hs'
            · injection hsgfs with hfs
              subst hfs
              exact absurd htr' htr
            · exact ha2 s hs' gfs hsgfs htr' hkey deps' hdeps' d hd hdids
      | null => cases h
      | bool b => cases h
      | num l => cases h
      | str s1 => cases h
      | arr xs => cases h

lemma adjGet_map_nil {keys : List Json} :
    ∀ u, adjGet (keys.map (fun k => (k, ([] : List Json)))) u = [] := by
  induction keys with
  | nil => intro u; rfl
  | cons k ks ih =>
      intro u
      simp only [List.map_cons, adjGet]
      by_cases hk : k = u
      · rw [if_pos hk]
      · rw [if_neg hk]; exact ih u

lemma keys_map_nil (keys : List Json) :
    (keys.map (fun k => (k, ([] : List Json)))).map Prod.fst = keys := by
  induction keys with
  | nil => rfl
  | cons k ks ih => simp [ih]


/-! ### C5: cyclic definitions are reported invalid and never loaded -/

/-- Some stage object in the document's stage list declares `u` as its
(truthy) id. -/
def DeclaresId (ss : List Json) (u : Json) : Prop :=
  ∃ fs, Json.obj fs ∈ ss ∧ (dictGet fs "id").getD .null = u ∧ u.truthy = true

/-- Document-level dependency edge `u → v`: a stage with truthy id `u`
lists `v` in its `depends_on`, and `v` is itself a declared stage id. -/
def DocDepEdge (ss : List Json) (u v : Json) : Prop :=
  DeclaresId ss v ∧
  ∃ fs deps, Json.obj fs ∈ ss ∧ (dictGet fs "id").getD .null = u ∧
    u.truthy = true ∧
    pyIter ((dictGet fs "depends_on").getD (.arr [])) = .ok deps ∧ v ∈ deps

/-- If the document's declared dependency edges contain a cycle, every
completed run of `_validate_dependencies` reports a
`CIRCULAR_DEPENDENCY` error. -/
lemma validateDependencies_cycle {ss c : List Json}
    (hcyc : IsCycle (DocDepEdge ss) c) :
    ∀ {errs : List ValidationError},
      validateDependencies (.arr ss) = .ok errs →
      ∃ e ∈ errs, e.code = "CIRCULAR_DEPENDENCY" := by
  intro errs h
  by_contra hno
  push_neg at hno
  simp only [validateDependencies, pyIter] at h
  rcases hci : collectStageIds ss with e0 | ids
  · simp only [hci] at h
    exact Except.noConfusion h
  · simp only [hci] at h
    rcases hbd : buildDepsErrs ids ss
        ((dedupFirst ids).map (fun k => (k, ([] : List Json)))) with e0 | p
    · simp only [hbd] at h
      exact Except.noConfusion h
    · simp only [hbd] at h
      obtain ⟨refErrs, adj⟩ := p
      injection h with h
      have hcErr : ∀ e2 ∈ (dfsAll (adjGet adj) pyStr ((dedupFirst ids).length + 1)
          (dedupFirst ids) ⟨[], [], []⟩).cycleErrs,
          e2.code = "CIRCULAR_DEPENDENCY" := by
        intro e2 he2
        rcases dfsAll_errs_circ (adjGet adj) pyStr ((dedupFirst ids).length + 1)
            (dedupFirst ids) ⟨[], [], []⟩ e2 he2 with h1 | h2
        · cases h1
        · exact h2
      have hcEmpty : (dfsAll (adjGet adj) pyStr ((dedupFirst ids).length + 1)
          (dedupFirst ids) ⟨[], [], []⟩).cycleErrs = [] := by
        cases hE : (dfsAll (adjGet adj) pyStr ((dedupFirst ids).length + 1)
            (dedupFirst ids) ⟨[], [], []⟩).cycleErrs with
        | nil => rfl
        | cons a t =>
            exfalso
            have hmem : a ∈ errs := by
              rw [← h]
              exact List.mem_append_right _ (by rw [hE]; exact List.mem_cons_self _ _)
            exact hno a hmem (hcErr a (by rw [hE]; exact List.mem_cons_self _ _))
      obtain ⟨hk, hmono, hclo, hadds⟩ := buildDepsErrs_spec hbd
      have hclosed : ∀ u, ∀ v ∈ adjGet adj u, v ∈ dedupFirst ids := by
        intro u v hv
        rcases hclo u v hv with h1 | h2
        · rw [adjGet_map_nil] at h1
          cases h1
        · exact mem_dedupFirst.2 h2
      obtain ⟨rank, hrank⟩ :=
        dfs_no_error_rank (adjGet adj) pyStr (dedupFirst ids) hclosed hcEmpty
      have hr : ∀ u v, DocDepEdge ss u v → rank v < rank u := by
        intro u v hedge
        obtain ⟨⟨gfs, hgmem, hgid, hgtr⟩, fs, deps, hmem, hid, htr, hdi, hvdeps⟩ :=
          hedge
        have huids : u ∈ ids := by
          have hm := collectStageIds_mem hci (.obj fs) hmem fs rfl
            (by rw [hid]; exact htr)
          rw [hid] at hm
          exact hm
        have hvids : v ∈ ids := by
          have hm := collectStageIds_mem hci (.obj gfs) hgmem gfs rfl
            (by rw [hgid]; exact hgtr)
          rw [hgid] at hm
          exact hm
        have hukey : u ∈ ((dedupFirst ids).map
            (fun k => (k, ([] : List Json)))).map Prod.fst := by
          rw [keys_map_nil]
          exact mem_dedupFirst.2 huids
        have hvadj : v ∈ adjGet adj u := by
          have hm := hadds (.obj fs) hmem fs rfl (by rw [hid]; exact htr)
            (by rw [hid]; exact hukey) deps hdi v hvdeps hvids
          rw [hid] at hm
          exact hm
        exact hrank u (mem_dedupFirst.2 huids) v hvadj
      exact isCycle_no_rank hr c hcyc

/-- One iteration of `PipelineLoader._parse_stages`: the `StageDefinition`
built from one raw stage mapping, represented by its field mapping
(Python dataclasses are untyped at runtime, so whatever value the YAML
held is stored as-is, with the dataclass defaults for absent keys). -/
def parse_stage (raw : List (String × Json)) : List (String × Json) :=
  let stage_type :=
    if (dictGet raw "persona").isSome then "persona"
    else if (dictGet raw "type").getD .null = .str "action" then "action"
    else "unknown"
  [("id", (dictGet raw "id").getD (.str "")),
   ("name", (dictGet raw "name").getD (.str "")),
   ("stage_type", .str stage_type),
   ("persona", (dictGet raw "persona").getD .null),
   ("action", (dictGet raw "action").getD .null),
   ("description", (dictGet raw "description").getD (.str "")),
   ("input_template", (dictGet raw "input_template").getD (.str "")),
   ("output_mapping", (dictGet raw "output_mapping").getD (.obj [])),
   ("depends_on", (dictGet raw "depends_on").getD (.arr [])),
   ("parallel_with", (dictGet raw "parallel_with").getD (.arr [])),
   ("timeout_seconds", (dictGet raw "timeout_seconds").getD (.num "120")),
   ("required", (dictGet raw "required").getD (.bool true)),
   ("condition", (dictGet raw "condition").getD .null),
   ("config", (dictGet raw "config").getD (.obj []))]

/-- `PipelineLoader._parse_stages`: `raw.get` on a non-mapping element
raises. -/
def parse_stages : List Json → Except String (List Json)
  | [] => .ok []
  | s :: rest =>
      match s with
      | .obj raw =>
          match parse_stages rest with
          | .error e => .error e
          | .ok out => .ok (.obj (parse_stage raw) :: out)
      | _ => .error "AttributeError: object has no attribute get"

/-- `PipelineLoader.load_from_yaml`, at the level of the parsed document:
`parsed` stands for the outcome of the external YAML parse of the
content (shared by the validator call and the `yaml.safe_load` below),
and the returned `PipelineDefinition` is represented by its field
mapping (the `raw_yaml` echo of the input text is omitted).  When
validation is requested and the result is not valid, the loader raises
before parsing any stage. -/
def load_from_yaml (tp : String → Bool) (probe : String → Json)
    (parsed : Option Json) (validateFlag validate_credentials : Bool) :
    Except String (List (String × Json) × Option ValidationResult) :=
  let vstep : Except String (Option ValidationResult) :=
    if validateFlag then
      match validate tp probe parsed validate_credentials with
      | .error e => .error e
      | .ok vr =>
          if vr.valid = false then
            .error "ValueError: Pipeline validation failed"
          else .ok (some vr)
    else .ok none
  match vstep with
  | .error e => .error e
  | .ok vres =>
      match parsed.getD .null with
      | .obj fields =>
          match pyIter ((dictGet fields "stages").getD (.arr [])) with
          | .error e => .error e
          | .ok stages_raw =>
              match parse_stages stages_raw with
              | .error e => .error e
              | .ok stages =>
                  .ok ([("name", (dictGet fields "name").getD (.str "unnamed")),
                        ("display_name", (dictGet fields "display_name").getD
                          ((dictGet fields "name").getD (.str "Unnamed Pipeline"))),
                        ("description", (dictGet fields "description").getD (.str "")),
                        ("version", (dictGet fields "version").getD (.str "1.0.0")),
                        ("category", (dictGet fields "category").getD (.str "general")),
                        ("stages", .arr stages),
                        ("input_schema", (dictGet fields "input").getD (.obj [])),
                        ("output_schema", (dictGet fields "output").getD (.obj [])),
                        ("config", (dictGet fields "config").getD (.obj [])),
                        ("execution", (dictGet fields "execution").getD (.obj [])),
                        ("hooks", (dictGet fields "hooks").getD (.obj []))],
                       vres)
      | _ => .error "AttributeError: object has no attribute get"

/-- C5: for every parsed pipeline document whose well-shaped `stages`
list declares a dependency cycle, `validate` completes and returns a
result with `valid = false` containing at least one
`CIRCULAR_DEPENDENCY` error, and `load_from_yaml` with validation
requested raises a `ValueError` instead of building a pipeline
definition, so no execution-order computation is ever reached for such
a definition. -/
theorem validator_cycle_invalid_and_loader_raises
    (tp : String → Bool) (probe : String → Json) (vc : Bool)
    (fields : List (String × Json)) (ss c : List Json)
    (hst : dictGet fields "stages" = some (.arr ss))
    (hshape : ss.all stageShapeOk = true)
    (hcyc : IsCycle (DocDepEdge ss) c) :
    ∃ r, validate tp probe (some (.obj fields)) vc = .ok r ∧
      r.valid = false ∧
      (∃ e ∈ r.errors, e.code = "CIRCULAR_DEPENDENCY") ∧
      load_from_yaml tp probe (some (.obj fields)) true vc =
        .error "ValueError: Pipeline validation failed" := by
  have hne : fields ≠ [] := by
    intro hE
    rw [hE] at hst
    simp [dictGet] at hst
  have hshape' : stagesShapeOk (some ((dictGet fields "stages").getD (.arr []))) =
      true := by
    rw [hst, Option.getD_some]
    exact hshape
  obtain ⟨⟨stageErrs, warns⟩, hstagesOk⟩ := validateStages_ok hshape'
  obtain ⟨depErrs, hdeps⟩ := validateDependencies_ok hshape'
  obtain ⟨dur, hdur⟩ := estimateDuration_ok hshape'
  have hdepsSS : validateDependencies (.arr ss) = .ok depErrs := by
    have hcopy := hdeps
    rw [hst, Option.getD_some] at hcopy
    exact hcopy
  obtain ⟨ec, hecmem, heccode⟩ := validateDependencies_cycle hcyc hdepsSS
  set structErrs : List ValidationError :=
    (["name", "stages"].filter
      (fun f => (dictGet fields f).isNone)).map missingFieldErr with hstruct
  set tmplErrs := validateTemplates tp (.obj fields) with htmpl
  set errsSoFar : List ValidationError :=
    [] ++ structErrs ++ stageErrs ++ depErrs ++ tmplErrs with herrsSoFar
  have hmemErrs : ec ∈ errsSoFar := by
    rw [herrsSoFar]
    simp only [List.nil_append, List.append_assoc, List.mem_append]
    exact Or.inr (Or.inr (Or.inl hecmem))
  have hneErrs : errsSoFar ≠ [] := by
    intro hE
    rw [hE] at hmemErrs
    cases hmemErrs
  have hcredEq : (if vc ∧ errsSoFar.isEmpty then
      validateCredentialsStep probe (.obj fields)
    else .ok ([], [])) = .ok ([], []) := by
    rw [if_neg]
    rintro ⟨h1, h2⟩
    exact hneErrs (List.isEmpty_iff.1 h2)
  have hval : validate tp probe (some (.obj fields)) vc =
      .ok (buildResult (errsSoFar ++ []) warns [] dur) := by
    unfold validate
    rw [if_neg (by simp [Json.truthy, List.isEmpty_iff, hne])]
    simp only [Option.getD_some, validateStructure, getStages, hstagesOk,
      hdeps, hdur, ← hstruct, ← htmpl, ← herrsSoFar, hcredEq]
  have hvalid : (buildResult (errsSoFar ++ []) warns [] dur).valid = false := by
    simp only [buildResult]
    rw [List.append_nil]
    cases hE : errsSoFar.isEmpty with
    | false => rfl
    | true => exact absurd (List.isEmpty_iff.1 hE) hneErrs
  refine ⟨buildResult (errsSoFar ++ []) warns [] dur, hval, hvalid, ?_, ?_⟩
  · exact ⟨ec, List.mem_append.2 (Or.inl hmemErrs), heccode⟩
  · have hvalid2 : (buildResult errsSoFar warns [] dur).valid = false := by
      rw [← List.append_nil errsSoFar]
      exact hvalid
    simp [load_from_yaml, hval, hvalid2]

/-- Field mapping of the first stage of the concrete cyclic document. -/
def cyclicStage1Fields : List (String × Json) :=
  [("id", Json.str "s1"), ("name", Json.str "S1"),
   ("persona", Json.str "dev"),
   ("depends_on", Json.arr [Json.str "s2"])]

/-- Field mapping of the second stage of the concrete cyclic document. -/
def cyclicStage2Fields : List (String × Json) :=
  [("id", Json.str "s2"), ("name", Json.str "S2"),
   ("persona", Json.str "dev"),
   ("depends_on", Json.arr [Json.str "s1"])]

/-- Stage list of the concrete cyclic document: s1 and s2 depend on each
other. -/
def cyclicStages : List Json :=
  [Json.obj cyclicStage1Fields, Json.obj cyclicStage2Fields]

/-- The concrete cyclic pipeline document. -/
def cyclicFields : List (String × Json) :=
  [("name", Json.str "cyclic"), ("stages", Json.arr cyclicStages)]

/-- Witness for C5 at the concrete two-stage cyclic document. -/
theorem validator_cycle_invalid_and_loader_raises_witness :
    ∃ r, validate (fun _ => true) (fun _ => Json.obj [])
        (some (.obj cyclicFields)) true = .ok r ∧
      r.valid = false ∧
      (∃ e ∈ r.errors, e.code = "CIRCULAR_DEPENDENCY") ∧
      load_from_yaml (fun _ => true) (fun _ => Json.obj [])
        (some (.obj cyclicFields)) true true =
        .error "ValueError: Pipeline validation failed" := by
  have e12 : DocDepEdge cyclicStages (Json.str "s1") (Json.str "s2") :=
    ⟨⟨cyclicStage2Fields, List.mem_cons_of_mem _ (List.mem_cons_self _ _),
       rfl, rfl⟩,
     cyclicStage1Fields, [Json.str "s2"], List.mem_cons_self _ _, rfl, rfl, rfl,
     List.mem_cons_self _ _⟩
  have e21 : DocDepEdge cyclicStages (Json.str "s2") (Json.str "s1") :=
    ⟨⟨cyclicStage1Fields, List.mem_cons_self _ _, rfl, rfl⟩,
     cyclicStage2Fields, [Json.str "s1"],
     List.mem_cons_of_mem _ (List.mem_cons_self _ _), rfl, rfl, rfl,
     List.mem_cons_self _ _⟩
  have hcyc : IsCycle (DocDepEdge cyclicStages)
      [Json.str "s1", Json.str "s2"] := ⟨e12, e21, trivial⟩
  exact validator_cycle_invalid_and_loader_raises (fun _ => true)
    (fun _ => Json.obj []) true cyclicFields cyclicStages
    [Json.str "s1", Json.str "s2"] rfl rfl hcyc

/-! ### C10: the task-graph pipeline state machine -/

/-- `PipelineState` of the task-graph pipeline model. -/
inductive PipelineState where
  | draft
  | pending
  | running
  | paused
  | completed
  | failed
  | cancelled
deriving DecidableEq

/-- `PIPELINE_TRANSITIONS` (the dict lookup `PIPELINE_TRANSITIONS.get(state, [])`
is total over the enum). -/
def PIPELINE_TRANSITIONS : PipelineState → List PipelineState
  | .draft => [.pending, .cancelled]
  | .pending => [.running, .cancelled]
  | .running => [.paused, .completed, .failed, .cancelled]
  | .paused => [.running, .cancelled]
  | .completed => []
  | .failed => [.pending]
  | .cancelled => []

/-- The pipeline fields `transition_state` touches: `state` and
`state_changed_at` (the timestamp modelled as an abstract clock value). -/
structure PipelineRecord where
  state : PipelineState
  state_changed_at : Nat
deriving DecidableEq

/-- `Pipeline.can_transition_to`. -/
def can_transition_to (p : PipelineRecord) (new_state : PipelineState) : Bool :=
  decide (new_state ∈ PIPELINE_TRANSITIONS p.state)

/-- `PipelineService.transition_state`: returns whether the transition was
performed together with the updated record; `now` is the clock reading
taken for `state_changed_at`. -/
def transition_state (p : PipelineRecord) (new_state : PipelineState)
    (now : Nat) : Bool × PipelineRecord :=
  if can_transition_to p new_state = false then (false, p)
  else (true, { state := new_state, state_changed_at := now })

/-- C10: every state change goes through `PIPELINE_TRANSITIONS`: from
`COMPLETED` and `CANCELLED` no transition is ever performed (the record
is returned unchanged with result `false`), from `FAILED` the only
transition ever performed targets `PENDING`, and any requested
transition absent from the table returns `false` and leaves both
`state` and `state_changed_at` unchanged. -/
theorem pipeline_state_machine_invariants :
    (∀ (p : PipelineRecord) (ns : PipelineState) (now : Nat),
        p.state = .completed ∨ p.state = .cancelled →
        transition_state p ns now = (false, p)) ∧
    (∀ (p : PipelineRecord) (ns : PipelineState) (now : Nat),
        p.state = .failed → (transition_state p ns now).1 = true →
        ns = .pending) ∧
    (∀ (p : PipelineRecord) (ns : PipelineState) (now : Nat),
        ns ∉ PIPELINE_TRANSITIONS p.state →
        transition_state p ns now = (false, p)) := by
  refine ⟨?_, ?_, ?_⟩
  · intro p ns now h
    rcases h with h | h <;>
      simp [transition_state, can_transition_to, PIPELINE_TRANSITIONS, h]
  · intro p ns now h htrue
    cases ns <;>
      simp_all [transition_state, can_transition_to, PIPELINE_TRANSITIONS]
  · intro p ns now h
    simp [transition_state, can_transition_to, h]

/-- Witness for C10 at concrete records: a terminal `COMPLETED` record, a
terminal `CANCELLED` record, a `FAILED` record retried to `PENDING`, and
an off-table request from `DRAFT`. -/
theorem pipeline_state_machine_invariants_witness :
    transition_state ⟨.completed, 0⟩ .running 7 = (false, ⟨.completed, 0⟩) ∧
    transition_state ⟨.cancelled, 3⟩ .pending 7 = (false, ⟨.cancelled, 3⟩) ∧
    (PipelineState.pending = PipelineState.pending) ∧
    transition_state ⟨.draft, 0⟩ .running 7 = (false, ⟨.draft, 0⟩) :=
  ⟨pipeline_state_machine_invariants.1 ⟨.completed, 0⟩ .running 7 (Or.inl rfl),
   pipeline_state_machine_invariants.1 ⟨.cancelled, 3⟩ .pending 7 (Or.inr rfl),
   pipeline_state_machine_invariants.2.1 ⟨.failed, 0⟩ .pending 7 rfl (by decide),
   pipeline_state_machine_invariants.2.2 ⟨.draft, 0⟩ .running 7 (by decide)⟩

/-! ### Executor data structures and the template resolver -/

/-- `StageStatus` of the executor. -/
inductive StageStatus where
  | pending
  | running
  | completed
  | failed
  | skipped
deriving DecidableEq

/-- `StageResult` (wall-clock timestamp fields are dropped; `duration_ms`
is kept abstract as a `Nat`). -/
structure StageResult where
  stage_id : String
  status : StageStatus
  output : Option Json := none
  error : Option String := none
  duration_ms : Nat := 0
deriving DecidableEq

/-- `ExecutionContext` (timestamps dropped). -/
structure ExecutionContext where
  pipeline : PipelineDefinition
  input_params : List (String × Json)
  stage_outputs : List (String × Json) := []
  stage_results : List (String × StageResult) := []
  auto_approval : Bool := false

/-- `ExecutionResult` (timestamps dropped). -/
structure ExecutionResult where
  success : Bool
  stage_results : List (String × StageResult)
  outputs : List (String × Json)
  error : Option String := none

/-- Python `\s` (ASCII). -/
def isSpaceCh (c : Char) : Bool :=
  c = ' ' || c = '\t' || c = '\n' || c = '\r' || c = '\x0b' || c = '\x0c'

/-- Python `[\w_.]` (at ASCII: letters, digits, underscore, dot). -/
def isWordCh (c : Char) : Bool :=
  c.isAlphanum || c = '_' || c = '.'

/-- The regex match of `_resolve_template_dict` against the pattern for a
simple variable reference (brace-brace, optional spaces, a nonempty run
of word characters and dots as group 1, optional spaces, brace-brace,
nothing but spaces after), over the character list. -/
def bareVarMatchList (cs : List Char) : Option (List Char) :=
  match cs.dropWhile isSpaceCh with
  | '\x7b' :: '\x7b' :: rest1 =>
      let rest2 := rest1.dropWhile isSpaceCh
      let name := rest2.takeWhile isWordCh
      let rest3 := rest2.dropWhile isWordCh
      if name.isEmpty then none
      else
        match rest3.dropWhile isSpaceCh with
        | '\x7d' :: '\x7d' :: rest4 =>
            if (rest4.dropWhile isSpaceCh).isEmpty then some name else none
        | _ => none
  | _ => none

/-- The regex match of `_resolve_template_dict` on a string. -/
def bareVarMatch (s : String) : Option String :=
  (bareVarMatchList s.toList).map (fun cs => String.mk cs)

/-- The `for part in parts` navigation loop of `_resolve_variable_path`
(`None` is `Json.null`: Python cannot distinguish a stored `None` from an
absent key here). -/
def navigatePath (obj : Json) : List String → Json
  | [] => obj
  | part :: rest =>
      match obj with
      | .obj fs => navigatePath ((dictGet fs part).getD .null) rest
      | _ => .null

/-- Python `str.split` at a single-character separator, over the
character list: empty parts are preserved and the empty string yields one
empty part. -/
def splitDotsList : List Char → List (List Char)
  | [] => [[]]
  | c :: rest =>
      let r := splitDotsList rest
      if c = '.' then [] :: r
      else
        match r with
        | [] => [[c]]
        | g :: gs => (c :: g) :: gs

/-- Python `path.split('.')`. -/
def splitDots (s : String) : List String :=
  (splitDotsList s.toList).map (fun cs => String.mk cs)

/-- `_resolve_variable_path`. -/
def resolveVariablePath (path : String) (ctx : ExecutionContext) : Json :=
  match splitDots path with
  | [] => .null
  | root :: rest =>
      if root = "input" then navigatePath (.obj ctx.input_params) rest
      else if root = "stages" then
        match rest with
        | [] => .null
        | stage_id :: rest2 =>
            let obj := (dictGet ctx.stage_outputs stage_id).getD .null
            let rest3 := match rest2 with
                         | "output" :: r => r
                         | _ => rest2
            navigatePath obj rest3
      else if root = "config" then navigatePath (.obj ctx.pipeline.config) rest
      else .null

mutual

/-- `_resolve_template_dict`; `render` is the external Jinja2 rendering of
`_resolve_template` (with its exception fallback), abstracted as a
function of the template text and the context. -/
def resolveTemplateDict (render : String → ExecutionContext → String) :
    Json → ExecutionContext → Json
  | .str s, ctx =>
      (match bareVarMatch s with
       | some path =>
           let value := resolveVariablePath path ctx
           if value = .null then .str (render s ctx) else value
       | none => .str (render s ctx))
  | .obj fs, ctx => .obj (resolveTemplateDictFields render fs ctx)
  | .arr xs, ctx => .arr (resolveTemplateDictItems render xs ctx)
  | other, _ => other
termination_by j _ => sizeOf j

def resolveTemplateDictFields (render : String → ExecutionContext → String) :
    List (String × Json) → ExecutionContext → List (String × Json)
  | [], _ => []
  | (k, v) :: rest, ctx =>
      (k, resolveTemplateDict render v ctx) ::
        resolveTemplateDictFields render rest ctx
termination_by l _ => sizeOf l

def resolveTemplateDictItems (render : String → ExecutionContext → String) :
    List Json → ExecutionContext → List Json
  | [], _ => []
  | x :: rest, ctx =>
      resolveTemplateDict render x ctx ::
        resolveTemplateDictItems render rest ctx
termination_by l _ => sizeOf l

end

lemma bareVarMatchList_marker {name : List Char} :
    ∀ {cs : List Char}, bareVarMatchList cs = some name →
      containsSubAux cs ['\x7b', '\x7b'] = true := by
  intro cs
  induction cs with
  | nil => intro h; simp [bareVarMatchList, List.dropWhile] at h
  | cons c t ih =>
      intro h
      by_cases hc : isSpaceCh c = true
      · have ht : bareVarMatchList t = some name := by
          simpa [bareVarMatchList, List.dropWhile, hc] using h
        simp [containsSubAux, ih ht]
      · simp only [bareVarMatchList, List.dropWhile, hc] at h
        split at h
        · rename_i rest1 heq
          injection heq with h1 h2
          subst h1
          subst h2
          simp [containsSubAux, List.isPrefixOf]
        · exact Option.noConfusion h

lemma bareVarMatch_no_marker {s : String}
    (h : containsSub s "\x7b\x7b" = false) : bareVarMatch s = none := by
  unfold bareVarMatch
  cases hm : bareVarMatchList s.toList with
  | none => rfl
  | some p =>
      exfalso
      have hc : containsSub s "\x7b\x7b" = true := bareVarMatchList_marker hm
      rw [h] at hc
      cases hc

/-- C4: over every execution context, `_resolve_template_dict` returns a
string containing no template marker unchanged (the external Jinja2
renderer is abstracted as `render`; that it leaves expression-free
templates unchanged is the spec-modelled hypothesis `hrender`); a string
that is exactly one bare variable reference over the roots
`input`/`stages`/`config` resolves to the exact stored structured value
whenever that value is non-null; and any other string (no bare-variable
match, or a reference resolving to null) is rendered to plain text. -/
theorem resolver_identity_and_bare_variable
    (render : String → ExecutionContext → String)
    (hrender : ∀ s ctx, containsSub s "\x7b\x7b" = false → render s ctx = s) :
    (∀ (ctx : ExecutionContext) (s : String),
        containsSub s "\x7b\x7b" = false →
        resolveTemplateDict render (.str s) ctx = .str s) ∧
    (∀ (ctx : ExecutionContext) (s path : String),
        bareVarMatch s = some path →
        resolveVariablePath path ctx ≠ .null →
        resolveTemplateDict render (.str s) ctx = resolveVariablePath path ctx) ∧
    (∀ (ctx : ExecutionContext) (s path : String),
        bareVarMatch s = some path →
        resolveVariablePath path ctx = .null →
        resolveTemplateDict render (.str s) ctx = .str (render s ctx)) ∧
    (∀ (ctx : ExecutionContext) (s : String),
        bareVarMatch s = none →
        resolveTemplateDict render (.str s) ctx = .str (render s ctx)) := by
  refine ⟨?_, ?_, ?_, ?_⟩
  · intro ctx s hs
    rw [resolveTemplateDict, bareVarMatch_no_marker hs, hrender s ctx hs]
  · intro ctx s path hmatch hne
    rw [resolveTemplateDict, hmatch]
    simp only []
    rw [if_neg hne]
  · intro ctx s path hmatch hnull
    rw [resolveTemplateDict, hmatch]
    simp only []
    rw [if_pos hnull]
  · intro ctx s hnone
    rw [resolveTemplateDict, hnone]

/-- Execution context for the C4 witness: stage `a` has a stored
structured output. -/
def resolverWitnessCtx : ExecutionContext :=
  { pipeline := examplePipelineABC,
    input_params := [("project_path", Json.str "p")],
    stage_outputs := [("a", Json.obj [("fixes", Json.arr [Json.str "f1"])])] }

/-- Witness for C4: a marker-free string is returned unchanged, and the
bare reference to stage a's output returns the exact stored object. -/
theorem resolver_identity_and_bare_variable_witness :
    resolveTemplateDict (fun s _ => s) (.str "run the tests")
        resolverWitnessCtx = .str "run the tests" ∧
    resolveTemplateDict (fun s _ => s)
        (.str "\x7b\x7b stages.a.output \x7d\x7d") resolverWitnessCtx =
      Json.obj [("fixes", Json.arr [Json.str "f1"])] := by
  obtain ⟨h1, h2, h3, h4⟩ :=
    resolver_identity_and_bare_variable (fun s _ => s) (fun _ _ _ => rfl)
  refine ⟨h1 resolverWitnessCtx "run the tests" rfl, ?_⟩
  rw [h2 resolverWitnessCtx "\x7b\x7b stages.a.output \x7d\x7d"
    "stages.a.output" rfl (by decide)]
  rfl

/-! ### C8: `_extract_json_from_text` -/

/-- Whether the regex for a JSON object opened by one expected top-level
key (brace, optional spaces, the quoted key, optional spaces, colon)
matches at the head of the character list. -/
def matchKeyOpen (key : List Char) (cs : List Char) : Bool :=
  match cs with
  | '\x7b' :: rest =>
      let r1 := rest.dropWhile isSpaceCh
      if key.isPrefixOf r1 then
        match (r1.drop key.length).dropWhile isSpaceCh with
        | ':' :: _ => true
        | _ => false
      else false
  | _ => false

/-- `re.search`: index of the leftmost match of the predicate. -/
def searchIdx (p : List Char → Bool) : List Char → Option Nat
  | [] => if p [] then some 0 else none
  | c :: rest =>
      if p (c :: rest) then some 0
      else (searchIdx p rest).map (fun i => i + 1)

/-- `text.find(ch)`: index of the first occurrence. -/
def findCharIdx (ch : Char) : List Char → Option Nat
  | [] => none
  | c :: rest => if c = ch then some 0 else (findCharIdx ch rest).map (fun i => i + 1)

/-- The naive balanced-delimiter scan of `_extract_json_from_text`
(counts openers and closers regardless of string context): offset of the
closer that brings the running count to zero. -/
def braceScan (openCh closeCh : Char) : List Char → Int → Nat → Option Nat
  | [], _, _ => none
  | c :: rest, count, idx =>
      if c = openCh then braceScan openCh closeCh rest (count + 1) (idx + 1)
      else if c = closeCh then
        if count - 1 = 0 then some idx
        else braceScan openCh closeCh rest (count - 1) (idx + 1)
      else braceScan openCh closeCh rest count (idx + 1)

/-- The expected top-level keys of `json_start_patterns`, in order. -/
def json_start_keys : List String :=
  ["fixes", "violations", "components", "screens"]

/-- One iteration of the `json_start_patterns` loop: search the pattern,
brace-scan from the match, `json.loads` the span, accept only a dict. -/
def tryKeyPattern (cs : List Char) (key : String) : Option Json :=
  match searchIdx (matchKeyOpen ('"' :: key.toList ++ ['"'])) cs with
  | none => none
  | some start =>
      let tail := cs.drop start
      match braceScan '\x7b' '\x7d' tail 0 0 with
      | none => none
      | some endOff =>
          match jsonLoads (String.mk (tail.take (endOff + 1))) with
          | some (.obj fs) => some (.obj fs)
          | _ => none

/-- The `json_start_patterns` loop (strategy a). -/
def tryKeyPatterns (cs : List Char) : List String → Option Json
  | [] => none
  | k :: ks =>
      match tryKeyPattern cs k with
      | some v => some v
      | none => tryKeyPatterns cs ks

/-- Strategy b: the first balanced brace span that parses as a dict. -/
def tryFirstObject (cs : List Char) : Option Json :=
  match findCharIdx '\x7b' cs with
  | none => none
  | some start =>
      let tail := cs.drop start
      match braceScan '\x7b' '\x7d' tail 0 0 with
      | none => none
      | some endOff =>
          match jsonLoads (String.mk (tail.take (endOff + 1))) with
          | some (.obj fs) => some (.obj fs)
          | _ => none

/-- Strategy c: the first balanced bracket span that parses as a list,
wrapped as an `items` dict. -/
def tryFirstArray (cs : List Char) : Option Json :=
  match findCharIdx '[' cs with
  | none => none
  | some start =>
      let tail := cs.drop start
      match braceScan '[' ']' tail 0 0 with
      | none => none
      | some endOff =>
          match jsonLoads (String.mk (tail.take (endOff + 1))) with
          | some (.arr xs) => some (.obj [("items", .arr xs)])
          | _ => none

/-- `_extract_json_from_text`. -/
def extract_json_from_text (text : String) : Option Json :=
  if text.isEmpty then none
  else
    match tryKeyPatterns text.toList json_start_keys with
    | some v => some v
    | none =>
        match tryFirstObject text.toList with
        | some v => some v
        | none => tryFirstArray text.toList

lemma tryKeyPattern_shape (cs : List Char) (k : String) :
    tryKeyPattern cs k = none ∨ ∃ fs, tryKeyPattern cs k = some (.obj fs) := by
  simp only [tryKeyPattern]
  repeat' split
  all_goals first
    | exact Or.inl rfl
    | exact Or.inr ⟨_, rfl⟩

lemma tryKeyPatterns_shape (cs : List Char) :
    ∀ ks, tryKeyPatterns cs ks = none ∨
      ∃ fs, tryKeyPatterns cs ks = some (.obj fs) := by
  intro ks
  induction ks with
  | nil => exact Or.inl rfl
  | cons k rest ih =>
      rcases tryKeyPattern_shape cs k with h | ⟨fs, h⟩
      · rcases ih with h2 | ⟨fs, h2⟩
        · exact Or.inl (by simp [tryKeyPatterns, h, h2])
        · exact Or.inr ⟨fs, by simp [tryKeyPatterns, h, h2]⟩
      · exact Or.inr ⟨fs, by simp [tryKeyPatterns, h]⟩

lemma tryFirstObject_shape (cs : List Char) :
    tryFirstObject cs = none ∨ ∃ fs, tryFirstObject cs = some (.obj fs) := by
  simp only [tryFirstObject]
  repeat' split
  all_goals first
    | exact Or.inl rfl
    | exact Or.inr ⟨_, rfl⟩

lemma tryFirstArray_shape (cs : List Char) :
    tryFirstArray cs = none ∨ ∃ fs, tryFirstArray cs = some (.obj fs) := by
  simp only [tryFirstArray]
  repeat' split
  all_goals first
    | exact Or.inl rfl
    | exact Or.inr ⟨_, rfl⟩

lemma matchKeyOpen_head {k cs : List Char} (h : matchKeyOpen k cs = true) :
    ∃ rest, cs = '\x7b' :: rest := by
  unfold matchKeyOpen at h
  split at h
  · rename_i rest
    exact ⟨rest, rfl⟩
  · cases h

lemma searchIdx_matchKeyOpen_none {cs : List Char} (h : '\x7b' ∉ cs)
    (k : List Char) : searchIdx (matchKeyOpen k) cs = none := by
  induction cs with
  | nil =>
      have h0 : matchKeyOpen k [] = false := rfl
      simp [searchIdx, h0]
  | cons c rest ih =>
      simp only [List.mem_cons, not_or] at h
      have h1 : matchKeyOpen k (c :: rest) = false := by
        cases hm : matchKeyOpen k (c :: rest)
        · rfl
        · obtain ⟨r, hr⟩ := matchKeyOpen_head hm
          injection hr with hr1 hr2
          exact absurd hr1.symm h.1
      simp [searchIdx, h1, ih h.2]

lemma findCharIdx_none {ch : Char} {cs : List Char} (h : ch ∉ cs) :
    findCharIdx ch cs = none := by
  induction cs with
  | nil => rfl
  | cons c rest ih =>
      simp only [List.mem_cons, not_or] at h
      simp only [findCharIdx]
      rw [if_neg (fun hc => h.1 hc.symm), ih h.2]
      rfl

lemma tryKeyPatterns_no_brace {cs : List Char} (h : '\x7b' ∉ cs) :
    ∀ ks, tryKeyPatterns cs ks = none := by
  intro ks
  induction ks with
  | nil => rfl
  | cons k rest ih =>
      have h1 : tryKeyPattern cs k = none := by
        unfold tryKeyPattern
        rw [searchIdx_matchKeyOpen_none h]
      simp [tryKeyPatterns, h1, ih]

lemma tryFirstObject_no_brace {cs : List Char} (h : '\x7b' ∉ cs) :
    tryFirstObject cs = none := by
  unfold tryFirstObject
  rw [findCharIdx_none h]

lemma tryFirstArray_no_bracket {cs : List Char} (h : '[' ∉ cs) :
    tryFirstArray cs = none := by
  unfold tryFirstArray
  rw [findCharIdx_none h]

/-- C8: `_extract_json_from_text` is total (modelled as a pure function
into `Option`: every raising operation inside it is guarded by the
source's own checks and except clauses) and returns nothing or a dict;
it tries the strategies in order — a JSON object opened by one of the
expected top-level keys located by brace-balanced scanning, then the
first balanced brace span that parses as a dict, then the first balanced
bracket span that parses as a list returned wrapped as an `items` dict —
and when the text has no opening brace and no opening bracket every
strategy fails and nothing is returned. -/
theorem extract_json_shape_and_strategy_order :
    (∀ text : String, extract_json_from_text text = none ∨
      ∃ fs, extract_json_from_text text = some (.obj fs)) ∧
    (∀ (text : String) (v : Json), text.isEmpty = false →
      tryKeyPatterns text.toList json_start_keys = some v →
      extract_json_from_text text = some v) ∧
    (∀ (text : String) (v : Json), text.isEmpty = false →
      tryKeyPatterns text.toList json_start_keys = none →
      tryFirstObject text.toList = some v →
      extract_json_from_text text = some v) ∧
    (∀ text : String, text.isEmpty = false →
      tryKeyPatterns text.toList json_start_keys = none →
      tryFirstObject text.toList = none →
      extract_json_from_text text = tryFirstArray text.toList) ∧
    (∀ text : String, '\x7b' ∉ text.toList → '[' ∉ text.toList →
      extract_json_from_text text = none) := by
  refine ⟨?_, ?_, ?_, ?_, ?_⟩
  · intro text
    unfold extract_json_from_text
    by_cases he : text.isEmpty = true
    · rw [if_pos he]
      exact Or.inl rfl
    · rw [if_neg he]
      rcases tryKeyPatterns_shape text.data json_start_keys with h1 | ⟨fs, h1⟩
      · rcases tryFirstObject_shape text.data with h2 | ⟨fs2, h2⟩
        · rcases tryFirstArray_shape text.data with h3 | ⟨fs3, h3⟩
          · exact Or.inl (by simp [h1, h2, h3])
          · exact Or.inr ⟨fs3, by simp [h1, h2, h3]⟩
        · exact Or.inr ⟨fs2, by simp [h1, h2]⟩
      · exact Or.inr ⟨fs, by simp [h1]⟩
  · intro text v he h
    simp only [String.toList] at h
    unfold extract_json_from_text
    rw [if_neg (by simp [he])]
    simp [h]
  · intro text v he h1 h2
    simp only [String.toList] at h1 h2
    unfold extract_json_from_text
    rw [if_neg (by simp [he])]
    simp [h1, h2]
  · intro text he h1 h2
    simp only [String.toList] at h1 h2
    unfold extract_json_from_text
    rw [if_neg (by simp [he])]
    simp [h1, h2]
  · intro text hbrace hbracket
    simp only [String.toList] at hbrace hbracket
    unfold extract_json_from_text
    by_cases he : text.isEmpty = true
    · rw [if_pos he]
    · rw [if_neg he]
      simp [tryKeyPatterns_no_brace hbrace, tryFirstObject_no_brace hbrace,
        tryFirstArray_no_bracket hbracket]

/-- Witness for C8: a marker-free text yields nothing; a text embedding
an object opened by the `fixes` key yields that dict; a text whose only
JSON is an array yields the array wrapped as an `items` dict. -/
theorem extract_json_shape_and_strategy_order_witness :
    extract_json_from_text "plain text" = none ∧
    extract_json_from_text "ok \x7b\"fixes\": []\x7d" =
      some (.obj [("fixes", Json.arr [])]) ∧
    extract_json_from_text "nums [1, 2]" =
      some (.obj [("items", Json.arr [Json.num "1", Json.num "2"])]) := by
  obtain ⟨h1, h2, h3, h4, h5⟩ := extract_json_shape_and_strategy_order
  refine ⟨h5 "plain text" (by decide) (by decide), ?_, ?_⟩
  · exact h2 "ok \x7b\"fixes\": []\x7d" (.obj [("fixes", Json.arr [])]) rfl rfl
  · exact (h4 "nums [1, 2]" rfl rfl rfl).trans rfl

/-! ### The executor run loop (`PipelineExecutor.execute`)

The external stage work — the LLM/tool call performed by
`_execute_persona_stage` / `_execute_action_stage` after input
resolution — is abstracted as `runStage`, a function of the stage fields
the dispatch reads (everything except `timeout_seconds`, `required`,
`condition` and the scheduler fields) and the context; an exception it
raises surfaces as `.error`.  The concurrent `asyncio.gather` over one
batch is modelled by the deterministic schedule that runs each coroutine
of the batch to completion in order; the properties proved below do not
depend on the interleaving. -/

/-- Generic insertion-order dict update (Python `d[k] = v`). -/
def recSet {α : Type} : List (String × α) → String → α → List (String × α)
  | [], k, v => [(k, v)]
  | (k2, v2) :: rest, k, v =>
      if k2 = k then (k, v) :: rest else (k2, v2) :: recSet rest k v

/-- Generic dict lookup (Python `d.get(k)`), for non-`Json` values. -/
def recGet {α : Type} : List (String × α) → String → Option α
  | [], _ => none
  | (k2, v) :: rest, k => if k2 = k then some v else recGet rest k

/-- The stage fields the persona/action dispatch reads. -/
structure StageCall where
  id : String
  stage_type : String
  persona : Option String
  action : Option String
  input_template : Json
  config : List (String × Json)
deriving DecidableEq

def stageCallOf (s : StageDefinition) : StageCall :=
  { id := s.id, stage_type := s.stage_type, persona := s.persona,
    action := s.action, input_template := s.input_template,
    config := s.config }

/-- `_evaluate_condition`: render, then compare the lowered text (the
`except` branch is unreachable here because the modelled renderer is
total). -/
def evaluateCondition (render : String → ExecutionContext → String)
    (condition : String) (ctx : ExecutionContext) : Bool :=
  let result := (render condition ctx).toLower
  result = "true" || result = "1" || result = "yes"

/-- One hook entry: `"log" in hook` then `hook["log"]` (the render of the
message is guarded by `_resolve_template`'s own except clause; event
emission is a `pass`). -/
def executeHook (hook : Json) : Except String Unit :=
  match hook with
  | .obj _ => .ok ()
  | .arr xs =>
      if Json.str "log" ∈ xs then
        .error "TypeError: list indices must be integers"
      else .ok ()
  | .str s =>
      if containsSub s "log" then
        .error "TypeError: string indices must be integers"
      else .ok ()
  | _ => .error "TypeError: argument of type is not iterable"

def executeHooksList : List Json → Except String Unit
  | [] => .ok ()
  | h :: rest =>
      match executeHook h with
      | .error e => .error e
      | .ok _ => executeHooksList rest

/-- `_execute_hooks` applied to one `hooks.get(key, [])` value. -/
def executeHooksOn (v : Json) : Except String Unit :=
  match pyIter v with
  | .error e => .error e
  | .ok items => executeHooksList items

/-- The body of `_execute_stage` after the condition check: dispatch on
`stage_type`, store the output and a `completed` result on success; on an
exception store a `failed` result carrying the message and re-raise it
exactly when the stage is `required`. -/
def executeStageBody (runStage : StageCall → ExecutionContext → Except String Json)
    (stage : StageDefinition) (ctx : ExecutionContext) :
    ExecutionContext × Except String StageResult :=
  let outcome : Except String Json :=
    if stage.stage_type = "persona" then runStage (stageCallOf stage) ctx
    else if stage.stage_type = "action" then runStage (stageCallOf stage) ctx
    else .error ("ValueError: Unknown stage type: " ++ stage.stage_type)
  match outcome with
  | .ok output =>
      let result : StageResult :=
        { stage_id := stage.id, status := .completed, output := some output }
      ({ ctx with
          stage_outputs := recSet ctx.stage_outputs stage.id output,
          stage_results := recSet ctx.stage_results stage.id result },
       .ok result)
  | .error e =>
      let result : StageResult :=
        { stage_id := stage.id, status := .failed, error := some e }
      ({ ctx with stage_results := recSet ctx.stage_results stage.id result },
       if stage.required then .error e else .ok result)

/-- `_execute_stage`: a falsy `condition` (absent or empty) skips the
check; an unmet condition records a `skipped` result. -/
def executeStage (render : String → ExecutionContext → String)
    (runStage : StageCall → ExecutionContext → Except String Json)
    (stage : StageDefinition) (ctx : ExecutionContext) :
    ExecutionContext × Except String StageResult :=
  match stage.condition with
  | some c =>
      if c.isEmpty = false ∧ evaluateCondition render c ctx = false then
        let result : StageResult := { stage_id := stage.id, status := .skipped }
        ({ ctx with stage_results := recSet ctx.stage_results stage.id result },
         .ok result)
      else executeStageBody runStage stage ctx
  | none => executeStageBody runStage stage ctx

/-- `_get_stage`: first stage with the given id. -/
def getStageById (pipeline : PipelineDefinition) (stage_id : String) :
    Option StageDefinition :=
  pipeline.stages.find? (fun s => s.id = stage_id)

/-- The per-batch `gather`: run each found stage, collecting the
task outcomes in order. -/
def runBatchStages (render : String → ExecutionContext → String)
    (runStage : StageCall → ExecutionContext → Except String Json)
    (pipeline : PipelineDefinition) :
    List String → ExecutionContext →
    ExecutionContext × List (String × Except String StageResult)
  | [], ctx => (ctx, [])
  | sid :: rest, ctx =>
      match getStageById pipeline sid with
      | none => runBatchStages render runStage pipeline rest ctx
      | some stage =>
          let p1 := executeStage render runStage stage ctx
          let p2 := runBatchStages render runStage pipeline rest p1.1
          (p2.1, (sid, p1.2) :: p2.2)

/-- The post-batch failure loop of `execute`: re-record a `failed` result
for every exception outcome and, when the pipeline config has
`on_failure: stop`, re-raise the first one. -/
def recordFailures (stop : Bool) :
    List (String × Except String StageResult) → ExecutionContext →
    ExecutionContext × Option String
  | [], ctx => (ctx, none)
  | (_, .ok _) :: rest, ctx => recordFailures stop rest ctx
  | (sid, .error e) :: rest, ctx =>
      let result : StageResult :=
        { stage_id := sid, status := .failed, error := some e }
      let ctx2 : ExecutionContext :=
        { ctx with stage_results := recSet ctx.stage_results sid result }
      if stop then (ctx2, some e)
      else recordFailures stop rest ctx2

/-- The `for batch in batches` loop: an aborting failure short-circuits
the remaining batches. -/
def runBatches (render : String → ExecutionContext → String)
    (runStage : StageCall → ExecutionContext → Except String Json)
    (pipeline : PipelineDefinition) (stop : Bool) :
    List (List String) → ExecutionContext → ExecutionContext × Option String
  | [], ctx => (ctx, none)
  | batch :: rest, ctx =>
      let p1 := runBatchStages render runStage pipeline batch ctx
      let p2 := recordFailures stop p1.2 p1.1
      match p2.2 with
      | some e => (p2.1, some e)
      | none => runBatches render runStage pipeline stop rest p2.1

/-- One `output_mapping` loop of `_aggregate_outputs`. -/
def aggregateStage (stage_output : Json) :
    List (String × String) → List (String × Json) → List (String × Json)
  | [], outs => outs
  | (okey, jpath) :: rest, outs =>
      let outs2 :=
        match jpath.toList with
        | '$' :: '.' :: fieldCs =>
            match stage_output with
            | .obj fs =>
                dictSet outs okey ((dictGet fs (String.mk fieldCs)).getD .null)
            | _ => outs
        | _ => outs
      aggregateStage stage_output rest outs2

/-- The stage loop of `_aggregate_outputs`. -/
def aggregateStages (ctx : ExecutionContext) :
    List StageDefinition → List (String × Json) → List (String × Json)
  | [], outs => outs
  | stage :: rest, outs =>
      let so := (dictGet ctx.stage_outputs stage.id).getD .null
      let outs2 :=
        if so.truthy = true ∧ stage.output_mapping ≠ [] then
          aggregateStage so stage.output_mapping outs
        else outs
      aggregateStages ctx rest outs2

/-- `_aggregate_outputs`. -/
def aggregate_outputs (pipeline : PipelineDefinition)
    (ctx : ExecutionContext) : List (String × Json) :=
  aggregateStages ctx pipeline.stages []

/-- `PipelineExecutor.execute`: the try body runs the `on_start` hooks,
computes the batches (a cycle raises), runs them, runs the `on_complete`
hooks and aggregates; any exception is caught and turned into a failure
`ExecutionResult` — except that the failure path first runs the
`on_failure` hooks, and an exception raised there escapes `execute`
(hence the `Except` result type). -/
def executeE (render : String → ExecutionContext → String)
    (runStage : StageCall → ExecutionContext → Except String Json)
    (pipeline : PipelineDefinition) (input_params : List (String × Json))
    (auto_approval : Bool) : Except String ExecutionResult :=
  let ctx0 : ExecutionContext :=
    { pipeline := pipeline, input_params := input_params,
      auto_approval := auto_approval }
  let fail : ExecutionContext → String → Except String ExecutionResult :=
    fun ctx e =>
      match executeHooksOn ((dictGet pipeline.hooks "on_failure").getD (.arr [])) with
      | .error e2 => .error e2
      | .ok _ => .ok { success := false, stage_results := ctx.stage_results,
                       outputs := [], error := some e }
  match executeHooksOn ((dictGet pipeline.hooks "on_start").getD (.arr [])) with
  | .error e => fail ctx0 e
  | .ok _ =>
      match pipeline.get_execution_order with
      | none => fail ctx0 "ValueError: Circular dependency detected"
      | some batches =>
          let p := runBatches render runStage pipeline
            (decide (dictGet pipeline.config "on_failure" = some (.str "stop")))
            batches ctx0
          match p.2 with
          | some e => fail p.1 e
          | none =>
              match executeHooksOn
                  ((dictGet pipeline.hooks "on_complete").getD (.arr [])) with
              | .error e => fail p.1 e
              | .ok _ =>
                  .ok { success := true, stage_results := p.1.stage_results,
                        outputs := aggregate_outputs pipeline p.1 }

/-! ### C9: output aggregation -/

lemma dictGet_dictSet (outs : List (String × Json)) (k2 k : String) (v : Json) :
    dictGet (dictSet outs k2 v) k =
      if k2 = k then some v else dictGet outs k := by
  induction outs with
  | nil =>
      by_cases h : k2 = k
      · simp [dictSet, dictGet, h]
      · simp [dictSet, dictGet, h]
  | cons e rest ih =>
      obtain ⟨k3, v3⟩ := e
      by_cases h3 : k3 = k2
      · subst h3
        by_cases h : k3 = k
        · simp [dictSet, dictGet, h]
        · simp [dictSet, dictGet, h]
      · simp only [dictSet, if_neg h3, dictGet]
        by_cases h : k3 = k
        · subst h
          have hne : ¬ k2 = k3 := fun hc => h3 hc.symm
          simp [hne]
        · simp [h, ih]

lemma aggregateStage_unmapped {k : String} {so : Json} :
    ∀ {m : List (String × String)} {outs : List (String × Json)},
      (∀ jp, (k, jp) ∉ m) →
      dictGet (aggregateStage so m outs) k = dictGet outs k := by
  intro m
  induction m with
  | nil => intro outs _; rfl
  | cons e rest ih =>
      intro outs h
      obtain ⟨okey, jpath⟩ := e
      have hrest : ∀ jp, (k, jp) ∉ rest := fun jp hm =>
        h jp (List.mem_cons_of_mem _ hm)
      have hkey : okey ≠ k := by
        intro hc
        subst hc
        exact h jpath (List.mem_cons_self _ _)
      simp only [aggregateStage]
      rw [ih hrest]
      split
      · split
        · rw [dictGet_dictSet]
          rw [if_neg hkey]
        · rfl
      · rfl

lemma aggregateStages_unmapped {k : String} {ctx : ExecutionContext} :
    ∀ {ss : List StageDefinition} {outs : List (String × Json)},
      (∀ s ∈ ss, ∀ jp, (k, jp) ∉ s.output_mapping) →
      dictGet (aggregateStages ctx ss outs) k = dictGet outs k := by
  intro ss
  induction ss with
  | nil => intro outs _; rfl
  | cons s rest ih =>
      intro outs h
      simp only [aggregateStages]
      rw [ih (fun s2 hs2 => h s2 (List.mem_cons_of_mem _ hs2))]
      split
      · exact aggregateStage_unmapped (h s (List.mem_cons_self _ _))
      · rfl

lemma aggregateStage_last {k jp : String} {fieldCs : List Char}
    {fs : List (String × Json)} {m2 : List (String × String)}
    (hjp : jp.toList = '$' :: '.' :: fieldCs)
    (hm2 : ∀ e ∈ m2, e.1 ≠ k) :
    ∀ (m1 : List (String × String)) (outs : List (String × Json)),
      dictGet (aggregateStage (.obj fs) (m1 ++ (k, jp) :: m2) outs) k =
        some ((dictGet fs (String.mk fieldCs)).getD .null) := by
  intro m1
  induction m1 with
  | nil =>
      intro outs
      simp only [List.nil_append, aggregateStage, hjp]
      rw [aggregateStage_unmapped
        (fun jp2 hm => (hm2 (k, jp2) hm) rfl)]
      rw [dictGet_dictSet, if_pos rfl]
  | cons e m1rest ih =>
      intro outs
      obtain ⟨okey, jpath⟩ := e
      simp only [List.cons_append, aggregateStage]
      exact ih _

lemma aggregateStages_value {k jp : String} {fieldCs : List Char}
    {fs : List (String × Json)} {s : StageDefinition}
    {ctx : ExecutionContext} {m1 m2 : List (String × String)} {post : List StageDefinition}
    (hjp : jp.toList = '$' :: '.' :: fieldCs)
    (hmap : s.output_mapping = m1 ++ (k, jp) :: m2)
    (hm2 : ∀ e ∈ m2, e.1 ≠ k)
    (hout : dictGet ctx.stage_outputs s.id = some (.obj fs))
    (htr : (Json.obj fs).truthy = true)
    (hpost : ∀ s2 ∈ post, ∀ jp2, (k, jp2) ∉ s2.output_mapping) :
    ∀ (pre : List StageDefinition) (outs : List (String × Json)),
      dictGet (aggregateStages ctx (pre ++ s :: post) outs) k =
        some ((dictGet fs (String.mk fieldCs)).getD .null) := by
  intro pre
  induction pre with
  | nil =>
      intro outs
      simp only [List.nil_append, aggregateStages]
      rw [aggregateStages_unmapped hpost]
      have hguard : ((dictGet ctx.stage_outputs s.id).getD .null).truthy = true ∧
          s.output_mapping ≠ [] := by
        constructor
        · rw [hout]
          exact htr
        · rw [hmap]
          intro hc
          cases m1 <;> cases hc
      rw [if_pos hguard]
      have hso : (dictGet ctx.stage_outputs s.id).getD .null = .obj fs := by
        rw [hout]
        rfl
      rw [hso, hmap]
      exact aggregateStage_last hjp hm2 m1 outs
  | cons p prerest ih =>
      intro outs
      simp only [List.cons_append, aggregateStages]
      exact ih _

/-- C9 (amended): every key of the aggregate comes from some stage's
`output_mapping`; and for a stage whose recorded output is a truthy
mapping, an `output_mapping` entry `(k, "$." ++ field)` sets the
aggregate at `k` to that output's value at `field` — provided no later
entry of that stage's mapping and no later stage maps the same key,
since the aggregation loop lets later writers overwrite earlier ones. -/
theorem aggregate_outputs_mapped_and_last_writer :
    (∀ (p : PipelineDefinition) (ctx : ExecutionContext) (k : String) (v : Json),
      dictGet (aggregate_outputs p ctx) k = some v →
      ∃ s ∈ p.stages, ∃ jp, (k, jp) ∈ s.output_mapping) ∧
    (∀ (ctx : ExecutionContext) (k jp : String) (fieldCs : List Char)
        (fs : List (String × Json)) (s : StageDefinition)
        (m1 m2 : List (String × String)) (pre post : List StageDefinition),
      jp.toList = '$' :: '.' :: fieldCs →
      s.output_mapping = m1 ++ (k, jp) :: m2 →
      (∀ e ∈ m2, e.1 ≠ k) →
      dictGet ctx.stage_outputs s.id = some (.obj fs) →
      (Json.obj fs).truthy = true →
      (∀ s2 ∈ post, ∀ jp2, (k, jp2) ∉ s2.output_mapping) →
      ctx.pipeline.stages = pre ++ s :: post →
      dictGet (aggregate_outputs ctx.pipeline ctx) k =
        some ((dictGet fs (String.mk fieldCs)).getD .null)) := by
  constructor
  · intro p ctx k v h
    by_contra hno
    push_neg at hno
    have hun : ∀ s ∈ p.stages, ∀ jp, (k, jp) ∉ s.output_mapping := by
      intro s hs jp hm
      exact absurd hm (hno s hs jp)
    have h0 : dictGet (aggregate_outputs p ctx) k = none := by
      unfold aggregate_outputs
      rw [aggregateStages_unmapped hun]
      rfl
    rw [h0] at h
    cases h
  · intro ctx k jp fieldCs fs s m1 m2 pre post hjp hmap hm2 hout htr hpost hstages
    unfold aggregate_outputs
    rw [hstages]
    exact aggregateStages_value hjp hmap hm2 hout htr hpost pre []

/-- Stages and context for the C9 counterexample and witness: two stages
map the same aggregate key from their own outputs. -/
def aggStage1 : StageDefinition :=
  { id := "s1", name := "S1", stage_type := "action",
    output_mapping := [("result", "$.a")] }

def aggStage2 : StageDefinition :=
  { id := "s2", name := "S2", stage_type := "action",
    output_mapping := [("result", "$.a")] }

def aggPipeline : PipelineDefinition :=
  { name := "agg", stages := [aggStage1, aggStage2] }

def aggCtx : ExecutionContext :=
  { pipeline := aggPipeline, input_params := [],
    stage_outputs := [("s1", Json.obj [("a", Json.num "1")]),
                      ("s2", Json.obj [("a", Json.num "2")])] }

/-- C9 counterexample: both stages satisfy the claim's per-stage premise
for the key `result` with distinct values, but the aggregate holds only
the later stage's value — the earlier mapped value is overwritten, so
the claimed equation fails for the earlier stage. -/
theorem aggregate_outputs_overwrite_counterexample :
    dictGet (aggregate_outputs aggPipeline aggCtx) "result" =
      some (Json.num "2") ∧
    aggStage1 ∈ aggPipeline.stages ∧
    ("result", "$.a") ∈ aggStage1.output_mapping ∧
    dictGet aggCtx.stage_outputs "s1" = some (Json.obj [("a", Json.num "1")]) ∧
    Json.num "2" ≠ Json.num "1" :=
  ⟨rfl, List.mem_cons_self _ _, List.mem_cons_self _ _, rfl, by decide⟩

/-- Witness for C9 at the concrete two-stage pipeline: the later stage's
entry is the last writer of `result`, and the aggregate carries its
output's value at `a`. -/
theorem aggregate_outputs_mapped_and_last_writer_witness :
    dictGet (aggregate_outputs aggPipeline aggCtx) "result" =
      some (Json.num "2") ∧
    (∃ s ∈ aggPipeline.stages, ∃ jp, ("result", jp) ∈ s.output_mapping) := by
  obtain ⟨hA, hB⟩ := aggregate_outputs_mapped_and_last_writer
  constructor
  · exact (hB aggCtx "result" "$.a" ['a'] [("a", Json.num "2")] aggStage2
      [] [] [aggStage1] [] rfl rfl (fun e he => by cases he) rfl rfl
      (fun s2 hs2 => by cases hs2) rfl).trans rfl
  · exact hA aggPipeline aggCtx "result" (Json.num "2") rfl

/-! ### C2, C3, C6: failure semantics, totality, timeout -/

/-- C6 (refuting the spec's per-stage timeout): `_execute_stage` never
reads `timeout_seconds` — executing a stage with its declared timeout
replaced by any other value yields the identical context mutation and
outcome for every renderer, handler and context, so no per-stage timeout
is ever enforced, no handler invocation is ever cancelled, and no
timeout failure can ever be recorded. -/
theorem executor_ignores_stage_timeout
    (render : String → ExecutionContext → String)
    (runStage : StageCall → ExecutionContext → Except String Json)
    (stage : StageDefinition) (ctx : ExecutionContext) (t : Nat) :
    executeStage render runStage { stage with timeout_seconds := t } ctx =
      executeStage render runStage stage ctx := rfl

/-- Stages, pipelines and context for the executor claims: `s1` is
required and its handler raises; `s2` depends on `s1` and succeeds. -/
def execStage1 : StageDefinition :=
  { id := "s1", name := "S1", stage_type := "action", action := some "a1" }

def execStage2 : StageDefinition :=
  { id := "s2", name := "S2", stage_type := "action", action := some "a2",
    depends_on := ["s1"] }

def execPipelineNoStop : PipelineDefinition :=
  { name := "p", stages := [execStage1, execStage2] }

def execPipelineStop : PipelineDefinition :=
  { name := "p", stages := [execStage1, execStage2],
    config := [("on_failure", Json.str "stop")] }

def execRunStage : StageCall → ExecutionContext → Except String Json :=
  fun call _ =>
    if call.id = "s1" then .error "boom"
    else .ok (.obj [("ok", .bool true)])

def execRender : String → ExecutionContext → String := fun s _ => s

def execCtx0 : ExecutionContext :=
  { pipeline := execPipelineNoStop, input_params := [] }

/-- The `failed` StageResult `_execute_stage` records for an exception. -/
def failedResult (sid e : String) : StageResult :=
  { stage_id := sid, status := .failed, error := some e }

lemma recordFailures_no_stop :
    ∀ (results : List (String × Except String StageResult))
      (ctx : ExecutionContext), (recordFailures false results ctx).2 = none := by
  intro results
  induction results with
  | nil => intro ctx; rfl
  | cons p rest ih =>
      intro ctx
      obtain ⟨sid, res⟩ := p
      cases res with
      | ok r => exact ih ctx
      | error e =>
          simp only [recordFailures, Bool.false_eq_true, if_false]
          exact ih _

/-- C2 (amended): when a stage's handler invocation fails, the executor
records a `failed` StageResult carrying the error message, leaves the
stage's output absent (so dependents resolve it to null), and re-raises
exactly when the stage is `required`; the batch loop never aborts the
run unless the pipeline config says `on_failure: stop` — a required
failure alone does not abort — and when it does abort, the batches after
the failing one are never executed. -/
theorem executor_failure_recording_and_stop_abort :
    (∀ (render : String → ExecutionContext → String)
        (runStage : StageCall → ExecutionContext → Except String Json)
        (stage : StageDefinition) (ctx : ExecutionContext) (e : String),
      stage.condition = none →
      (stage.stage_type = "persona" ∨ stage.stage_type = "action") →
      runStage (stageCallOf stage) ctx = .error e →
      executeStage render runStage stage ctx =
        ({ ctx with stage_results :=
             (recSet ctx.stage_results stage.id (failedResult stage.id e)) },
         if stage.required then .error e
         else .ok (failedResult stage.id e))) ∧
    (∀ (render : String → ExecutionContext → String)
        (runStage : StageCall → ExecutionContext → Except String Json)
        (pipeline : PipelineDefinition) (bs : List (List String))
        (ctx : ExecutionContext),
      (runBatches render runStage pipeline false bs ctx).2 = none) ∧
    (∀ (render : String → ExecutionContext → String)
        (runStage : StageCall → ExecutionContext → Except String Json)
        (pipeline : PipelineDefinition) (batch : List String)
        (bs bs2 : List (List String)) (ctx : ExecutionContext),
      (recordFailures true
        (runBatchStages render runStage pipeline batch ctx).2
        (runBatchStages render runStage pipeline batch ctx).1).2.isSome = true →
      runBatches render runStage pipeline true (batch :: bs) ctx =
        runBatches render runStage pipeline true (batch :: bs2) ctx) := by
  refine ⟨?_, ?_, ?_⟩
  · intro render runStage stage ctx e hcond htype hfail
    have hbody : executeStageBody runStage stage ctx =
        ({ ctx with stage_results :=
             (recSet ctx.stage_results stage.id (failedResult stage.id e)) },
         if stage.required then .error e
         else .ok (failedResult stage.id e)) := by
      unfold executeStageBody
      rcases htype with ht | ht
      · simp [ht, hfail, failedResult]
      · simp [ht, hfail, failedResult]
    unfold executeStage
    rw [hcond]
    exact hbody
  · intro render runStage pipeline bs
    induction bs with
    | nil => intro ctx; rfl
    | cons batch rest ih =>
        intro ctx
        simp only [runBatches, recordFailures_no_stop]
        exact ih _
  · intro render runStage pipeline batch bs bs2 ctx h
    rcases hS : (recordFailures true
        (runBatchStages render runStage pipeline batch ctx).2
        (runBatchStages render runStage pipeline batch ctx).1).2 with _ | e
    · rw [hS] at h
      cases h
    · simp only [runBatches, hS]

/-- C2 counterexample: `s1` is `required` and its handler fails, but with
no `on_failure: stop` config the run is not aborted: the later batch
still executes and the final result reports `success = true` (the failed
StageResult is recorded with the error message, as claimed). -/
theorem executor_required_failure_without_stop_counterexample :
    ∃ r, executeE execRender execRunStage execPipelineNoStop [] false = .ok r ∧
      r.success = true ∧
      (recGet r.stage_results "s1").map (fun sr => sr.status) =
        some .failed ∧
      (recGet r.stage_results "s1").map (fun sr => sr.error) =
        some (some "boom") ∧
      (recGet r.stage_results "s2").map (fun sr => sr.status) =
        some .completed ∧
      execStage1.required = true :=
  ⟨_, rfl, rfl, rfl, rfl, rfl, rfl⟩

/-- Witness for C2 at the concrete run: the failed result is recorded and
re-raised for the required stage; without `stop` no batch aborts; with
`stop` the batches after the failing one are irrelevant to the result. -/
theorem executor_failure_recording_and_stop_abort_witness :
    executeStage execRender execRunStage execStage1 execCtx0 =
      ({ execCtx0 with stage_results :=
           (recSet execCtx0.stage_results "s1" (failedResult "s1" "boom")) },
       .error "boom") ∧
    (runBatches execRender execRunStage execPipelineNoStop false
      [["s1"], ["s2"]] execCtx0).2 = none ∧
    runBatches execRender execRunStage execPipelineStop true
        [["s1"], ["s2"]] execCtx0 =
      runBatches execRender execRunStage execPipelineStop true
        [["s1"]] execCtx0 := by
  obtain ⟨h1, h2, h3⟩ := executor_failure_recording_and_stop_abort
  refine ⟨?_, h2 execRender execRunStage execPipelineNoStop
      [["s1"], ["s2"]] execCtx0,
    h3 execRender execRunStage execPipelineStop ["s1"] [["s2"]] []
      execCtx0 rfl⟩
  have h := h1 execRender execRunStage execStage1 execCtx0 "boom"
    rfl (Or.inr rfl) rfl
  simpa using h

/-- C3 (amended): `execute` returns an `ExecutionResult` for every
pipeline whose `on_failure` hooks execute cleanly (the failure path runs
those hooks inside the `except` handler, and an exception they raise
escapes `execute` — see the counterexample); concretely, for the
two-stage run s1 → s2 with a raising required s1 and `on_failure: stop`,
the result has `success = false`, a `failed` record for s1 carrying the
error, no record for s2 (it never started), and the top-level error
string set. -/
theorem executor_always_returns_result_and_stop_scenario :
    (∀ (render : String → ExecutionContext → String)
        (runStage : StageCall → ExecutionContext → Except String Json)
        (pipeline : PipelineDefinition) (input_params : List (String × Json))
        (auto : Bool),
      executeHooksOn ((dictGet pipeline.hooks "on_failure").getD (.arr [])) =
        .ok () →
      ∃ r, executeE render runStage pipeline input_params auto = .ok r) ∧
    (∃ r, executeE execRender execRunStage execPipelineStop [] false = .ok r ∧
      r.success = false ∧
      (recGet r.stage_results "s1").map (fun sr => sr.status) =
        some .failed ∧
      recGet r.stage_results "s2" = none ∧
      r.error = some "boom") := by
  constructor
  · intro render runStage pipeline input_params auto h
    simp only [executeE, h]
    repeat' split
    all_goals exact ⟨_, rfl⟩
  · exact ⟨_, rfl, rfl, rfl, rfl, rfl⟩

/-- C3 counterexample: a pipeline whose `hooks` carry a non-iterable
`on_start` and `on_failure` value makes `execute` raise: the `on_start`
failure is caught, but the `except` handler then runs the `on_failure`
hooks, whose own exception escapes `execute` — so `execute` does not
return an `ExecutionResult` on every input. -/
theorem executor_raises_on_bad_failure_hooks_counterexample :
    executeE execRender execRunStage
      { name := "bad", stages := [],
        hooks := [("on_start", Json.num "5"), ("on_failure", Json.num "5")] }
      [] false = .error "TypeError: object is not iterable" := rfl

/-- Witness for C3: the concrete no-stop pipeline has clean failure
hooks, and `execute` returns a result on it. -/
theorem executor_always_returns_result_witness :
    executeHooksOn
      ((dictGet execPipelineNoStop.hooks "on_failure").getD (.arr [])) =
      .ok () ∧
    ∃ r, executeE execRender execRunStage execPipelineNoStop [] false =
      .ok r :=
  ⟨rfl, executor_always_returns_result_and_stop_scenario.1 execRender
    execRunStage execPipelineNoStop [] false rfl⟩

end Pipelzr
